import Mathlib

/-!
Verification development for the `walgo` write-ahead log.

The Go sources are embedded shallowly:

* `entry.go`'s codec (`writeEntry`, `readEntry`, `gotoPreviousEntry`,
  `readPreviousEntry`) is modelled byte-exactly over a `ByteStream`
  (a byte list plus a file offset).  Machine integers are `Nat`/`Int`
  with explicit `% 2^w` where Go's fixed-width arithmetic can wrap.
* `segment.go`'s `segment`/`Wal` operations and the `Reader` are
  modelled at entry granularity: a segment file is the list of entries
  the codec wrote into it, and the file offset is counted in entries.
  This is justified by the byte-level codec theorems: every read and
  seek the program performs lands on an entry boundary.

All fallible Go functions return `GoRes`, which distinguishes ordinary
returned errors from Go runtime panics (out-of-range slice indexing).
-/

namespace Walgo

/-- Result of a Go call: a value, a returned `error`, or a runtime panic. -/
inductive GoErr where
  | noSegmentsFound
  | fileAlreadyOpen
  | indexAndTimestampSet
  | crcMismatch
  | noPreviousEntry
  | eof
  | badTime
  | badSeek
  deriving DecidableEq

inductive GoRes (α : Type) where
  | ok (a : α)
  | err (e : GoErr)
  | panics
  deriving DecidableEq

instance : Monad GoRes where
  pure := GoRes.ok
  bind x f := match x with
    | .ok a => f a
    | .err e => .err e
    | .panics => .panics

/-! ## Little/big-endian byte strings (`encoding/binary`) -/

/-- `w`-byte little-endian encoding of `n` (truncates above `2^(8*w)`,
as Go's fixed-width stores do). -/
def leBytes : Nat → Nat → List Nat
  | 0, _ => []
  | w + 1, n => n % 256 :: leBytes w (n / 256)

/-- Little-endian decode. -/
def fromLE : List Nat → Nat
  | [] => 0
  | b :: rest => b % 256 + 256 * fromLE rest

/-- `w`-byte big-endian encoding (Go's `time` encoding uses big-endian). -/
def beBytes (w n : Nat) : List Nat := (leBytes w n).reverse

def fromBE (bs : List Nat) : Nat := fromLE bs.reverse

/-! ## CRC-32C (Castagnoli), as in `hash/crc32` with the reflected
table algorithm: `crc ^= b; 8 × (crc = crc&1 ? (crc>>1)^0x82F63B78 : crc>>1)`. -/

def crcRound (c : Nat) : Nat :=
  if c % 2 = 1 then (c / 2) ^^^ 0x82F63B78 else c / 2

def crcRounds : Nat → Nat → Nat
  | 0, c => c
  | k + 1, c => crcRounds k (crcRound c)

def crc32c (data : List Nat) : Nat :=
  (data.foldl (fun c b => crcRounds 8 (c ^^^ (b % 256))) 0xFFFFFFFF) ^^^ 0xFFFFFFFF

/-! ## Go `time.Time`, restricted to what the program observes

The program only ever marshals times that went through `t.In(time.UTC)`
(`writeEntry`), which strips the monotonic reading, so `MarshalBinary`
always produces the 15-byte version-1 encoding with zone offset marker
`-1` (UTC).  A `GoTime` is the instant: seconds since Jan 1 of year 1
(`t.sec()`, an `int64`) and nanoseconds. -/

structure GoTime where
  sec : Int
  nsec : Nat
  deriving DecidableEq

def GoTime.zero : GoTime := ⟨0, 0⟩

/-- `time.Time.IsZero` (the zero instant). -/
def GoTime.isZero (t : GoTime) : Bool := decide (t = GoTime.zero)

/-- `a.Before(b)` — wall-clock comparison. -/
def GoTime.before (a b : GoTime) : Bool :=
  decide (a.sec < b.sec) || (decide (a.sec = b.sec) && decide (a.nsec < b.nsec))

/-- `a.After(b)`. -/
def GoTime.after (a b : GoTime) : Bool := GoTime.before b a

/-- In-range for the binary encoding: `sec` fits `int64`, `nsec` fits
the four encoded bytes (real times have `nsec < 10^9`). -/
def GoTime.wf (t : GoTime) : Prop :=
  -2 ^ 63 ≤ t.sec ∧ t.sec < 2 ^ 63 ∧ t.nsec < 2 ^ 32

/-- `time.Time.MarshalBinary` for a UTC time (version byte 1, 8-byte
big-endian two's-complement seconds, 4-byte big-endian nanoseconds,
zone-offset minutes `-1` encoded as `0xFFFF`). -/
def marshalTime (t : GoTime) : List Nat :=
  1 :: beBytes 8 (t.sec % (2 ^ 64 : Int)).toNat ++ beBytes 4 t.nsec ++ [0xFF, 0xFF]

/-- `time.Time.UnmarshalBinary` of a 15-byte buffer: checks the version
byte, decodes seconds and nanoseconds (the zone offset only selects the
location; the instant is unaffected). -/
def unmarshalTime (bs : List Nat) : GoRes GoTime :=
  match bs with
  | v :: rest =>
      if v = 1 ∧ rest.length = 14 then
        let secU := fromBE (rest.take 8)
        let sec : Int := if secU < 2 ^ 63 then (secU : Int) else (secU : Int) - 2 ^ 64
        let nsec := fromBE ((rest.drop 8).take 4)
        .ok ⟨sec, nsec⟩
      else .err .badTime
  | [] => .err .badTime

/-! ## Entry and the byte-level codec (`entry.go`) -/

/-- `Entry` from `entry.go`.  `data` is a list of bytes. -/
structure Entry where
  index : Nat
  length : Nat
  data : List Nat
  timestamp : GoTime
  crc32 : Nat
  deriving DecidableEq

/-- `ConstEntrySize`: 8 + 4 + 15 + 4 + 4 = 35. -/
def ConstEntrySize : Nat := 35

/-- `Entry.size`. -/
def Entry.size (m : Entry) : Nat := ConstEntrySize + m.data.length

/-- `newMessage`: index, payload, `time.Now()` passed in explicitly. -/
def newMessage (index : Nat) (data : List Nat) (now : GoTime) : Entry :=
  ⟨index, data.length % 2 ^ 32, data, now, crc32c data⟩

/-- Byte sequence `writeEntry` produces: index (8 LE), length (4 LE),
data, marshalled UTC timestamp (15), crc32 (4 LE), length again (4 LE).
`writeEntry` assembles exactly this buffer and issues one `Write`. -/
def writeEntryBytes (m : Entry) : List Nat :=
  leBytes 8 m.index ++ leBytes 4 m.length ++ m.data ++
    marshalTime m.timestamp ++ leBytes 4 m.crc32 ++ leBytes 4 m.length

/-- A seekable byte file: contents plus current offset
(an `io.ReadSeeker` over the bytes the program wrote). -/
structure ByteStream where
  data : List Nat
  pos : Nat
  deriving DecidableEq

/-- `io.ReadFull`-style read of `n` bytes (`binary.Read` into a
fixed-size value): errors out when fewer than `n` bytes remain. -/
def readBytes (n : Nat) (s : ByteStream) : GoRes (List Nat × ByteStream) :=
  if s.pos + n ≤ s.data.length then
    .ok ((s.data.drop s.pos).take n, ⟨s.data, s.pos + n⟩)
  else .err .eof

/-- `readEntry` from `entry.go`, byte-exact.  Note the source parses the
header length, reads that many data bytes, then *overwrites* `m.Length`
with the trailer length before the CRC check. -/
def readEntry (s : ByteStream) : GoRes (Entry × ByteStream) := do
  let (ib, s) ← readBytes 8 s
  let (lb, s) ← readBytes 4 s
  let (data, s) ← readBytes (fromLE lb) s
  let (tb, s) ← readBytes 15 s
  let ts ← unmarshalTime tb
  let (cb, s) ← readBytes 4 s
  let (tlb, s) ← readBytes 4 s
  if crc32c data ≠ fromLE cb then .err .crcMismatch
  else .ok (⟨fromLE ib, fromLE tlb, data, ts, fromLE cb⟩, s)

/-- `gotoPreviousEntry`: fails with `NoPreviousEntry` at offset 0;
otherwise reads the 4 trailer bytes just before the current offset and
seeks back by `length + ConstEntrySize` (uint32 addition, hence the
`% 2^32`; a seek to a negative offset is an OS error). -/
def gotoPreviousEntry (s : ByteStream) : GoRes ByteStream := do
  if s.pos = 0 then .err .noPreviousEntry
  else if s.pos < 4 then .err .badSeek
  else do
    let (lb, s) ← readBytes 4 ⟨s.data, s.pos - 4⟩
    let length := fromLE lb
    let back := (length + ConstEntrySize) % 2 ^ 32
    if s.pos < back then .err .badSeek
    else .ok ⟨s.data, s.pos - back⟩

/-- `readPreviousEntry` = `gotoPreviousEntry` then `readEntry`. -/
def readPreviousEntry (s : ByteStream) : GoRes (Entry × ByteStream) := do
  let s ← gotoPreviousEntry s
  readEntry s

/-! ## Codec round-trip lemmas -/

/-- Well-formedness Go's types and `newMessage` guarantee for an entry
that reaches `writeEntry`: `Length` mirrors the payload size, the
payload is bytes and fits a uint32 frame, the index is a uint64, the
CRC field is the Castagnoli checksum of the payload, and the timestamp
is a representable instant. -/
def Entry.wf (m : Entry) : Prop :=
  m.length = m.data.length ∧ m.data.length + 35 < 2 ^ 32 ∧ (∀ b ∈ m.data, b < 256) ∧
    m.index < 2 ^ 64 ∧ m.crc32 = crc32c m.data ∧ m.timestamp.wf

instance (t : GoTime) : Decidable t.wf := by unfold GoTime.wf; infer_instance

instance (m : Entry) : Decidable m.wf := by unfold Entry.wf; infer_instance

/-! ## Entry-granular model of `segment.go` and the `Reader`

A segment file is represented by the list of entries the codec wrote
into it, and file offsets are counted in entries; the byte-level
theorems above justify this: the program only ever reads whole entries
at entry boundaries and seeks (`Seek(0, End)`, `gotoPreviousEntry`)
between entry boundaries.  `fileLength` carries the byte count
(`Σ entry.size`), as segment metadata, exactly as in the source. -/

/-- Sum of on-disk entry sizes; the byte length of a segment file. -/
def sizeSum : List Entry → Nat
  | [] => 0
  | e :: r => e.size + sizeSum r

/-- `segment` from `segment.go`:  index/timestamp bounds, path (the
path is determined by the 20-digit zero-padded first index, so it is
carried as that number), byte length, plus the file state: contents
(`entries`), whether a handle is open, and the handle's offset in
entries. -/
structure Segment where
  firstIndex : Nat
  lastIndex : Nat
  firstTimestamp : GoTime
  lastTimestamp : GoTime
  path : Nat
  fileLength : Nat
  entries : List Entry
  isOpen : Bool
  pos : Nat
  deriving DecidableEq

/-- `createSegment`: fresh empty file named `{index:020d}.wal`, handle
open at offset 0. -/
def createSegment (index : Nat) : Segment :=
  ⟨index, index, GoTime.zero, GoTime.zero, index, 0, [], true, 0⟩

/-- `segment.write`: append via the codec (writes in this program
always happen with the offset at end of file), then update metadata:
`lastIndex`/`lastTimestamp` from the entry, `firstTimestamp` if the
file was empty, and `fileLength += entry.size()` (uint64). -/
def segWrite (s : Segment) (m : Entry) : Segment :=
  { s with
    entries := s.entries ++ [m],
    lastIndex := m.index,
    lastTimestamp := m.timestamp,
    firstTimestamp := if s.fileLength = 0 then m.timestamp else s.firstTimestamp,
    fileLength := (s.fileLength + m.size) % 2 ^ 64,
    pos := s.entries.length + 1 }

/-- `segment.open`: fails with `FileAlreadyOpen` when a handle is held;
a freshly opened OS handle is at offset 0. -/
def segOpen (s : Segment) : GoRes Segment :=
  if s.isOpen then .err .fileAlreadyOpen
  else .ok { s with isOpen := true, pos := 0 }

/-- `segment.close` (`flush` is an fsync and does not change state). -/
def segClose (s : Segment) : Segment := { s with isOpen := false }

/-- `readEntry(s.file)` at entry granularity: the entry under the
offset, with the codec's CRC gate (the only codec failure reachable on
frames this program wrote); past the end it is `io.EOF`. -/
def readEntrySeg (s : Segment) : GoRes (Entry × Segment) :=
  match s.entries[s.pos]? with
  | none => .err .eof
  | some e =>
      if crc32c e.data = e.crc32 then .ok (e, { s with pos := s.pos + 1 })
      else .err .crcMismatch

/-- `gotoPreviousEntry(s.file)` at entry granularity. -/
def gotoPrevSeg (s : Segment) : GoRes Segment :=
  if s.pos = 0 then .err .noPreviousEntry
  else .ok { s with pos := s.pos - 1 }

/-- `loadSegment`: reads the first entry for `firstTimestamp` (an empty
file gives `io.EOF`, tolerated), takes the file length, parses the name
for `firstIndex`, and if the file is non-empty reads the last entry
(via the trailer seek) for `lastIndex`/`lastTimestamp`.  The handle is
closed before returning. -/
def loadSegment (name : Nat) (es : List Entry) : GoRes Segment :=
  match es.head? with
  | none => .ok ⟨name, name, GoTime.zero, GoTime.zero, name, 0, es, false, 0⟩
  | some e0 =>
      if crc32c e0.data = e0.crc32 then
        match es.getLast? with
        | none => .err .eof
        | some eL =>
            if crc32c eL.data = eL.crc32 then
              .ok ⟨name, eL.index, e0.timestamp, eL.timestamp, name, sizeSum es, es, false, 0⟩
            else .err .crcMismatch
      else .err .crcMismatch

/-- Persisted configuration (durations in nanoseconds).  Only
`MaxSegmentSize` is consulted by the modelled operations. -/
structure Config where
  maxSegmentSize : Nat
  maxSegmentCount : Nat
  expirationTime : Int
  expirationInterval : Int
  deriving DecidableEq

/-- `Wal`: the ordered segment list, configuration, and next index.
`wal.current` always aliases the last element of `segments` (`New`,
`cycle` and `Load` all maintain this), so it is represented as
`segments.getLast?`. -/
structure Wal where
  segments : List Segment
  config : Config
  index : Nat
  deriving DecidableEq

def Wal.current (w : Wal) : Option Segment := w.segments.getLast?

/-- `New` (filesystem effects elided): one empty segment `0`, index 0. -/
def walNew (cfg : Config) : Wal := ⟨[createSegment 0], cfg, 0⟩

/-- Apply a function to the last element (the active segment, which
`wal.current` aliases inside `wal.segments`). -/
def updateLast (f : Segment → Segment) : List Segment → List Segment
  | [] => []
  | [s] => [f s]
  | s :: t :: r => s :: updateLast f (t :: r)

/-- `Wal.Close`: flush (fsync) and close the active segment. -/
def walClose (w : Wal) : Wal := { w with segments := updateLast segClose w.segments }

/-- `Wal.cycle`: `Close()`, then create a segment named after the
current next index, append it, make it active. -/
def walCycle (w : Wal) : Wal :=
  let w' := walClose w
  { w' with segments := w'.segments ++ [createSegment w'.index] }

/-- `Wal.Write`: fail with `NoSegmentsFound` if there is no active
segment; cycle when `MaxSegmentSize != 0 && fileLength >= MaxSegmentSize`;
then append `newMessage(wal.index, message)` (timestamp passed in for
`time.Now()`) and post-increment the uint64 index. -/
def walWrite (w : Wal) (message : List Nat) (now : GoTime) : GoRes Wal :=
  match w.segments.getLast? with
  | none => .err .noSegmentsFound
  | some cur =>
      let w := if w.config.maxSegmentSize ≠ 0 ∧ cur.fileLength ≥ w.config.maxSegmentSize
               then walCycle w else w
      .ok { w with
        segments := updateLast (fun s => segWrite s (newMessage w.index message now)) w.segments,
        index := (w.index + 1) % 2 ^ 64 }

/-- A log built by `New` followed by the given appends (payload and
`time.Now()` value for each). -/
def buildWal (cfg : Config) (msgs : List (List Nat × GoTime)) : GoRes Wal :=
  msgs.foldlM (fun w m => walWrite w m.1 m.2) (walNew cfg)

/-! ## Reader -/

structure Reader where
  index : Nat
  timestamp : GoTime
  current : Option Segment
  deriving DecidableEq

inductive ReaderOption where
  | withIndex (i : Nat)
  | withTimestamp (t : GoTime)
  deriving DecidableEq

/-- `WithIndex` / `WithTimestamp`: each sets its field, then errors if
the *other* field is set (`timestamp` non-zero, resp. `index ≠ 0`). -/
def applyReaderOption (r : Reader) : ReaderOption → GoRes Reader
  | .withIndex i =>
      let r := { r with index := i }
      if ¬ r.timestamp.isZero then .err .indexAndTimestampSet else .ok r
  | .withTimestamp t =>
      let r := { r with timestamp := t }
      if r.index ≠ 0 then .err .indexAndTimestampSet else .ok r

/-- The index-based segment search of `Wal.Reader`: first segment with
`index > first && index < last`, or `index == first || index == last`. -/
def findIndexSegment (i : Nat) (segs : List Segment) : Option Segment :=
  segs.find? (fun s => (decide (i > s.firstIndex) && decide (i < s.lastIndex)) ||
    decide (i = s.firstIndex) || decide (i = s.lastIndex))

/-- Search plus the clamp: on no match, the first segment when the
target is below `segments[0].firstIndex`, else the last.  `none` only
when `segments` is empty, where the Go code panics on `segments[0]`. -/
def selectIndexSegment (w : Wal) (i : Nat) : Option Segment :=
  match findIndexSegment i w.segments with
  | some s => some s
  | none =>
      match w.segments.head? with
      | none => none
      | some s0 => if i < s0.firstIndex then some s0 else w.segments.getLast?

/-- The timestamp-based segment search: first segment satisfying
(a) strictly inside its range, (b) equal to an endpoint, or (c) in the
gap before the next segment's first timestamp. -/
def findTsSegment (t : GoTime) : List Segment → Option Segment
  | [] => none
  | s :: rest =>
      if (t.after s.firstTimestamp && t.before s.lastTimestamp) ||
          (t == s.firstTimestamp || t == s.lastTimestamp) then some s
      else
        match rest with
        | [] => none
        | s2 :: _ =>
            if t.after s.lastTimestamp && t.before s2.firstTimestamp then some s
            else findTsSegment t rest

def selectTsSegment (w : Wal) (t : GoTime) : Option Segment :=
  match findTsSegment t w.segments with
  | some s => some s
  | none =>
      match w.segments.head? with
      | none => none
      | some s0 => if t.before s0.firstTimestamp then some s0 else w.segments.getLast?

/-- The forward probe loop of the index seek: `for reader.index > i`
read an entry and set `i` to its index; `io.EOF` breaks.  `fuel` bounds
the iteration count; the wrapper passes one more than the entries
remaining under the offset, which the loop can never exhaust. -/
def scanIdxGo (target : Nat) : Nat → Nat → Segment → GoRes (Nat × Segment)
  | 0, _, _ => .panics
  | fuel + 1, i, s =>
      if target > i then
        match readEntrySeg s with
        | .ok (e, s') => scanIdxGo target fuel e.index s'
        | .err .eof => .ok (i, s)
        | .err er => .err er
        | .panics => .panics
      else .ok (i, s)

def scanToIndex (target i : Nat) (s : Segment) : GoRes (Nat × Segment) :=
  scanIdxGo target (s.entries.length - s.pos + 1) i s

/-- The forward probe loop of the timestamp seek:
`for reader.timestamp.After(t)`. -/
def scanTsGo (target : GoTime) : Nat → GoTime → Nat → Segment → GoRes (Nat × Segment)
  | 0, _, _, _ => .panics
  | fuel + 1, t, i, s =>
      if target.after t then
        match readEntrySeg s with
        | .ok (e, s') => scanTsGo target fuel e.timestamp e.index s'
        | .err .eof => .ok (i, s)
        | .err er => .err er
        | .panics => .panics
      else .ok (i, s)

def scanToTimestamp (target : GoTime) (t : GoTime) (i : Nat) (s : Segment) :
    GoRes (Nat × Segment) :=
  scanTsGo target (s.entries.length - s.pos + 1) t i s

/-- Step back one entry, ignoring `NoPreviousEntry` (the source checks
`errors.Is(err, ErrNoPreviousEntry)` and continues). -/
def rewindOne (s : Segment) : GoRes Segment :=
  match gotoPrevSeg s with
  | .ok s' => .ok s'
  | .err .noPreviousEntry => .ok s
  | .err er => .err er
  | .panics => .panics

/-- `Wal.Reader`: apply the options, pick the segment by index or by
timestamp, load a reader-owned copy of it, open it, probe forward,
rewind one entry, and record the cursor index. -/
def walReader (w : Wal) (opts : List ReaderOption) : GoRes Reader := do
  let r ← opts.foldlM applyReaderOption ⟨0, GoTime.zero, none⟩
  if r.timestamp.isZero then
    match selectIndexSegment w r.index with
    | none => GoRes.panics
    | some st => do
        let cur ← loadSegment st.path st.entries
        let cur ← segOpen cur
        let (i, cur) ← scanToIndex r.index cur.firstIndex cur
        let cur ← rewindOne cur
        .ok { r with index := i, current := some cur }
  else
    match selectTsSegment w r.timestamp with
    | none => GoRes.panics
    | some st => do
        let cur ← loadSegment st.path st.entries
        let cur ← segOpen cur
        let (ti, cur) ← scanToTimestamp r.timestamp cur.firstTimestamp cur.firstIndex cur
        let cur ← rewindOne cur
        .ok { r with index := ti, current := some cur }

/-- `Reader.Next`: open the current copy if needed; if the cursor index
is past the copy's `lastIndex`, find the current segment in the log's
list by path and move to its successor (EOF is `NoSegmentsFound` when
there is none), then read one entry and set `index = entry.Index + 1`. -/
def readerNext (w : Wal) (r : Reader) : GoRes (Entry × Reader) := do
  match r.current with
  | none => .err .noSegmentsFound
  | some cur0 => do
      let cur ← if cur0.isOpen then pure cur0 else segOpen cur0
      let cur ←
        if r.index > cur.lastIndex then do
          match w.segments.findIdx? (fun s => s.path == cur.path) with
          | none => GoRes.err .noSegmentsFound
          | some si =>
              if si + 1 ≥ w.segments.length then GoRes.err .noSegmentsFound
              else
                match w.segments[si + 1]? with
                | none => GoRes.panics
                | some s2 => do
                    let c ← loadSegment s2.path s2.entries
                    segOpen c
        else pure cur
      match readEntrySeg cur with
      | .ok (e, cur') =>
          .ok (e, { r with index := (e.index + 1) % 2 ^ 64, current := some cur' })
      | .err er => .err er
      | .panics => .panics

/-- `k` successive `Next` calls. -/
def readN (w : Wal) : Nat → Reader → GoRes (List Entry × Reader)
  | 0, r => .ok ([], r)
  | k + 1, r => do
      let (e, r') ← readerNext w r
      let (es, r'') ← readN w k r'
      .ok (e :: es, r'')

/-! ## Load -/

def insertFile (x : Nat × List Entry) : List (Nat × List Entry) → List (Nat × List Entry)
  | [] => [x]
  | y :: r => if x.1 ≤ y.1 then x :: y :: r else y :: insertFile x r

/-- `slices.Sort(paths)`: 20-digit zero-padded names sort
lexicographically exactly as their numeric values. -/
def sortFiles : List (Nat × List Entry) → List (Nat × List Entry)
  | [] => []
  | x :: r => insertFile x (sortFiles r)

/-- The `.wal` files a Wal's directory holds: name and contents of each
segment file the writes produced. -/
def diskOf (w : Wal) : List (Nat × List Entry) :=
  w.segments.map (fun s => (s.path, s.entries))

/-- `Load` (after `config.json` was read and decoded successfully):
glob and sort the `.wal` paths, load each as a segment, take the last
as active (Go indexes `segments[len(segments)-1]`, a runtime panic on
an empty slice), open it, seek to end of file, and set `index` from the
active segment's `lastIndex` and emptiness. -/
def loadWal (files : List (Nat × List Entry)) (cfg : Config) : GoRes Wal := do
  let segs ← (sortFiles files).mapM (fun f => loadSegment f.1 f.2)
  match segs.getLast? with
  | none => GoRes.panics
  | some lastSeg => do
      let cur ← segOpen lastSeg
      let cur := { cur with pos := cur.entries.length }
      .ok ⟨segs.dropLast ++ [cur], cfg,
        if cur.fileLength = 0 then cur.lastIndex else cur.lastIndex + 1⟩

/-- Whether a Go call returned a value (as opposed to an error or a
panic). -/
def isOk {α : Type} : GoRes α → Bool
  | .ok _ => true
  | _ => false

/-! ## The writer invariant

`WalWF w msgs` captures the state a `Wal` reaches after `New` and the
appends in `msgs`: segment metadata agrees with segment contents, the
segments tile the entry sequence `0, 1, 2, …` contiguously, and the
concatenation of all segment files is exactly the entries built from
`msgs`. -/

/-- The entries `Write` builds from consecutive indices starting at `n`. -/
def mkEntries : Nat → List (List Nat × GoTime) → List Entry
  | _, [] => []
  | n, m :: rest => newMessage n m.1 m.2 :: mkEntries (n + 1) rest

/-- All entries across a segment list, in order. -/
def catEntries : List Segment → List Entry
  | [] => []
  | s :: r => s.entries ++ catEntries r

/-- Total number of entries across a segment list. -/
def entLen : List Segment → Nat
  | [] => 0
  | s :: r => s.entries.length + entLen r

/-- Total on-disk size of the entries an append sequence produces. -/
def msgsSize : List (List Nat × GoTime) → Nat
  | [] => 0
  | m :: rest => (35 + m.1.length) + msgsSize rest

/-- Metadata/content agreement for one segment, as `createSegment` and
`segment.write` maintain it (and as `loadSegment` recomputes it). -/
def segWF (s : Segment) : Prop :=
  s.path = s.firstIndex ∧
  s.fileLength = sizeSum s.entries ∧
  sizeSum s.entries < 2 ^ 64 ∧
  (∀ k e, s.entries[k]? = some e → e.index = s.firstIndex + k) ∧
  (∀ e ∈ s.entries, e.crc32 = crc32c e.data ∧ e.length = e.data.length % 2 ^ 32) ∧
  (s.entries = [] → s.lastIndex = s.firstIndex ∧ s.firstTimestamp = GoTime.zero ∧
    s.lastTimestamp = GoTime.zero) ∧
  (∀ e0, s.entries.head? = some e0 → s.firstTimestamp = e0.timestamp) ∧
  (∀ eL, s.entries.getLast? = some eL → s.lastIndex = eL.index ∧
    s.lastTimestamp = eL.timestamp)

/-- The segments starting at base index `n`: each starts where its
predecessor ended. -/
def chainWF : Nat → List Segment → Prop
  | _, [] => True
  | n, s :: rest => s.firstIndex = n ∧ segWF s ∧ chainWF (n + s.entries.length) rest

/-- Every segment but the last is non-empty (a cycle writes the next
entry into the fresh segment within the same `Write` call). -/
def initNE (l : List Segment) : Prop := ∀ s ∈ l.dropLast, s.entries ≠ []

/-- The writer invariant. -/
def WalWF (w : Wal) (msgs : List (List Nat × GoTime)) : Prop :=
  w.segments ≠ [] ∧
  chainWF 0 w.segments ∧
  initNE w.segments ∧
  catEntries w.segments = mkEntries 0 msgs ∧
  w.index = msgs.length ∧
  (msgs ≠ [] → ∀ sl, w.segments.getLast? = some sl → sl.entries ≠ [])

/-- A reader cursor about to deliver global entry `k`: its `current`
copy is the (opened) load of some segment of the log, positioned
`k - firstIndex` entries in.  `k` may sit one past the copy's contents
(the crossing state) or at `msgs.length` (exhausted). -/
def ReaderPos (w : Wal) (k : Nat) (r : Reader) : Prop :=
  r.index = k ∧
  ∃ (j : Nat) (s : Segment), w.segments[j]? = some s ∧
    r.current = some { s with isOpen := true, pos := k - s.firstIndex } ∧
    s.firstIndex ≤ k ∧ k ≤ s.firstIndex + s.entries.length

instance : LawfulMonad GoRes :=
  LawfulMonad.mk' GoRes
    (fun x => by cases x <;> rfl)
    (fun x f => rfl)
    (fun x f g => by cases x <;> rfl)

/-! ## Theorems -/

@[simp] theorem GoRes.bind_ok {α β : Type} (a : α) (f : α → GoRes β) :
    (GoRes.ok a >>= f) = f a := rfl

@[simp] theorem GoRes.bind_err {α β : Type} (e : GoErr) (f : α → GoRes β) :
    (GoRes.err e >>= f : GoRes β) = .err e := rfl

@[simp] theorem GoRes.bind_panics {α β : Type} (f : α → GoRes β) :
    (GoRes.panics >>= f : GoRes β) = .panics := rfl

@[simp] theorem GoRes.pure_eq {α : Type} (a : α) : (pure a : GoRes α) = .ok a := rfl

@[simp] theorem leBytes_length (w n : Nat) : (leBytes w n).length = w := by
  induction w generalizing n with
  | zero => rfl
  | succ w ih => simp [leBytes, ih]

@[simp] theorem beBytes_length (w n : Nat) : (beBytes w n).length = w := by
  simp [beBytes]

theorem fromLE_leBytes (w n : Nat) (h : n < 256 ^ w) : fromLE (leBytes w n) = n := by
  induction w generalizing n with
  | zero =>
      have : n = 0 := by simpa using h
      simp [leBytes, fromLE, this]
  | succ w ih =>
      have hdiv : n / 256 < 256 ^ w := by
        rw [Nat.div_lt_iff_lt_mul (by norm_num)]
        calc n < 256 ^ (w + 1) := h
        _ = 256 ^ w * 256 := by ring
      simp only [leBytes, fromLE, ih _ hdiv]
      omega

theorem fromBE_beBytes (w n : Nat) (h : n < 256 ^ w) : fromBE (beBytes w n) = n := by
  simp [fromBE, beBytes, fromLE_leBytes w n h]

theorem leBytes_lt (w n : Nat) : ∀ b ∈ leBytes w n, b < 256 := by
  induction w generalizing n with
  | zero => simp [leBytes]
  | succ w ih =>
      intro b hb
      simp only [leBytes, List.mem_cons] at hb
      rcases hb with h | h
      · omega
      · exact ih _ b h

theorem crcRound_lt (c : Nat) (h : c < 2 ^ 32) : crcRound c < 2 ^ 32 := by
  unfold crcRound
  split
  · exact Nat.xor_lt_two_pow (by omega) (by norm_num)
  · omega

theorem crcRounds_lt (k c : Nat) (h : c < 2 ^ 32) : crcRounds k c < 2 ^ 32 := by
  induction k generalizing c with
  | zero => exact h
  | succ k ih => exact ih _ (crcRound_lt c h)

theorem crc32c_lt (data : List Nat) : crc32c data < 2 ^ 32 := by
  unfold crc32c
  have : ∀ (l : List Nat) (c : Nat), c < 2 ^ 32 →
      l.foldl (fun c b => crcRounds 8 (c ^^^ (b % 256))) c < 2 ^ 32 := by
    intro l
    induction l with
    | nil => intro c h; exact h
    | cons b l ih =>
        intro c h
        exact ih _ (crcRounds_lt 8 _ (Nat.xor_lt_two_pow h (by omega)))
  exact Nat.xor_lt_two_pow (this _ _ (by norm_num)) (by norm_num)

@[simp] theorem marshalTime_length (t : GoTime) : (marshalTime t).length = 15 := by
  simp [marshalTime]

theorem unmarshalTime_marshalTime (t : GoTime) (h : t.wf) :
    unmarshalTime (marshalTime t) = .ok t := by
  obtain ⟨h1, h2, h3⟩ := h
  have hudef : (t.sec % (2 ^ 64 : Int)).toNat = (t.sec % (2 ^ 64 : Int)).toNat := rfl
  set u : Nat := (t.sec % (2 ^ 64 : Int)).toNat with hu
  have hlen8 : (beBytes 8 u).length = 8 := beBytes_length _ _
  have hlen4 : (beBytes 4 t.nsec).length = 4 := beBytes_length _ _
  have hulim : u < 2 ^ 64 := by omega
  have hsec : fromBE (beBytes 8 u) = u := by
    apply fromBE_beBytes
    have : (256 : Nat) ^ 8 = 2 ^ 64 := by norm_num
    omega
  have hnsec : fromBE (beBytes 4 t.nsec) = t.nsec := by
    apply fromBE_beBytes
    have : (256 : Nat) ^ 4 = 2 ^ 32 := by norm_num
    omega
  show unmarshalTime (1 :: (beBytes 8 u ++ (beBytes 4 t.nsec ++ [0xFF, 0xFF]))) = .ok t
  simp only [unmarshalTime]
  rw [if_pos (by simp [hlen8, hlen4])]
  rw [List.take_left' hlen8, List.drop_left' hlen8, List.take_left' hlen4]
  rw [hsec, hnsec]
  have hcase : (if u < 2 ^ 63 then (u : Int) else (u : Int) - 2 ^ 64) = t.sec := by
    split <;> omega
  rw [hcase]

@[simp] theorem writeEntryBytes_length (m : Entry) (h : m.length = m.data.length) :
    (writeEntryBytes m).length = 35 + m.data.length := by
  simp [writeEntryBytes, h]
  omega

theorem readBytes_step {D B R : List Nat} {p n : Nat}
    (hdec : D.drop p = B ++ R) (hB : B.length = n) (hp : p ≤ D.length) :
    readBytes n ⟨D, p⟩ = .ok (B, ⟨D, p + n⟩) ∧ D.drop (p + n) = R ∧ p + n ≤ D.length := by
  have hdl : (D.drop p).length = D.length - p := by simp
  rw [hdec] at hdl
  simp only [List.length_append] at hdl
  have hpn : p + n ≤ D.length := by omega
  refine ⟨?_, ?_, hpn⟩
  · unfold readBytes
    rw [if_pos hpn, hdec, List.take_left' hB]
  · rw [← List.drop_drop, hdec, List.drop_left' hB]

/-- Master codec lemma: `readEntry` positioned at the beginning of a
`writeEntry`-encoded well-formed entry returns exactly that entry and
leaves the offset just past its `35 + len(data)` bytes, for any
surrounding bytes. -/
theorem readEntry_writeEntryBytes (m : Entry) (pre suf : List Nat) (hwf : m.wf) :
    readEntry ⟨pre ++ (writeEntryBytes m ++ suf), pre.length⟩ =
      .ok (m, ⟨pre ++ (writeEntryBytes m ++ suf), pre.length + (35 + m.data.length)⟩) := by
  obtain ⟨hlen, hdl, _hbytes, hidx, hcrc, hts⟩ := hwf
  have e1 : fromLE (leBytes 8 m.index) = m.index := by
    apply fromLE_leBytes
    have : (256 : Nat) ^ 8 = 2 ^ 64 := by norm_num
    omega
  have e2 : fromLE (leBytes 4 m.length) = m.length := by
    apply fromLE_leBytes
    have : (256 : Nat) ^ 4 = 2 ^ 32 := by norm_num
    omega
  have e5 : fromLE (leBytes 4 m.crc32) = m.crc32 := by
    apply fromLE_leBytes
    have h32 := crc32c_lt m.data
    have : (256 : Nat) ^ 4 = 2 ^ 32 := by norm_num
    omega
  simp only [writeEntryBytes, List.append_assoc]
  have h0 := List.drop_left pre (leBytes 8 m.index ++ (leBytes 4 m.length ++ (m.data ++
    (marshalTime m.timestamp ++ (leBytes 4 m.crc32 ++ (leBytes 4 m.length ++ suf))))))
  have hp0 : pre.length ≤ (pre ++ (leBytes 8 m.index ++ (leBytes 4 m.length ++ (m.data ++
      (marshalTime m.timestamp ++ (leBytes 4 m.crc32 ++ (leBytes 4 m.length ++ suf))))))).length := by
    simp
  obtain ⟨r1, h1, q1⟩ := readBytes_step h0 (leBytes_length 8 m.index) hp0
  obtain ⟨r2, h2, q2⟩ := readBytes_step h1 (leBytes_length 4 m.length) q1
  obtain ⟨r3, h3, q3⟩ := readBytes_step h2 hlen.symm q2
  obtain ⟨r4, h4, q4⟩ := readBytes_step h3 (marshalTime_length m.timestamp) q3
  obtain ⟨r5, h5, q5⟩ := readBytes_step h4 (leBytes_length 4 m.crc32) q4
  obtain ⟨r6, _h6, _q6⟩ := readBytes_step h5 (leBytes_length 4 m.length) q5
  simp only [readEntry, r1, GoRes.bind_ok, e1, r2, e2, r3, r4,
    unmarshalTime_marshalTime m.timestamp hts, r5, e5, r6]
  rw [if_neg (not_not_intro hcrc.symm)]
  have harith : pre.length + 8 + 4 + m.length + 15 + 4 + 4 =
      pre.length + (35 + m.data.length) := by omega
  rw [harith]

/-- `gotoPreviousEntry` from just after an encoded entry seeks to its
first byte: the trailer gives `L = length`, and the backward seek is
`L + ConstEntrySize`. -/
theorem gotoPreviousEntry_after (m : Entry) (pre suf : List Nat) (hwf : m.wf) :
    gotoPreviousEntry ⟨pre ++ (writeEntryBytes m ++ suf), pre.length + (35 + m.data.length)⟩ =
      .ok ⟨pre ++ (writeEntryBytes m ++ suf), pre.length⟩ := by
  obtain ⟨hlen, hdl, _hbytes, _hidx, _hcrc, _hts⟩ := hwf
  have e2 : fromLE (leBytes 4 m.length) = m.length := by
    apply fromLE_leBytes
    have : (256 : Nat) ^ 4 = 2 ^ 32 := by norm_num
    omega
  simp only [writeEntryBytes, List.append_assoc]
  have h0 := List.drop_left pre (leBytes 8 m.index ++ (leBytes 4 m.length ++ (m.data ++
    (marshalTime m.timestamp ++ (leBytes 4 m.crc32 ++ (leBytes 4 m.length ++ suf))))))
  have hp0 : pre.length ≤ (pre ++ (leBytes 8 m.index ++ (leBytes 4 m.length ++ (m.data ++
      (marshalTime m.timestamp ++ (leBytes 4 m.crc32 ++ (leBytes 4 m.length ++ suf))))))).length := by
    simp
  obtain ⟨_r1, h1, q1⟩ := readBytes_step h0 (leBytes_length 8 m.index) hp0
  obtain ⟨_r2, h2, q2⟩ := readBytes_step h1 (leBytes_length 4 m.length) q1
  obtain ⟨_r3, h3, q3⟩ := readBytes_step h2 hlen.symm q2
  obtain ⟨_r4, h4, q4⟩ := readBytes_step h3 (marshalTime_length m.timestamp) q3
  obtain ⟨_r5, h5, q5⟩ := readBytes_step h4 (leBytes_length 4 m.crc32) q4
  obtain ⟨r6, _h6, _q6⟩ := readBytes_step h5 (leBytes_length 4 m.length) q5
  simp only [gotoPreviousEntry]
  rw [if_neg (by omega : ¬(pre.length + (35 + m.data.length) = 0))]
  rw [if_neg (by omega : ¬(pre.length + (35 + m.data.length) < 4))]
  have hpos4 : pre.length + (35 + m.data.length) - 4 = pre.length + 8 + 4 + m.length + 15 + 4 := by
    omega
  rw [hpos4, r6, GoRes.bind_ok]
  rw [e2]
  have hback : (m.length + ConstEntrySize) % 2 ^ 32 = 35 + m.data.length := by
    unfold ConstEntrySize
    rw [Nat.mod_eq_of_lt (by omega)]
    omega
  rw [hback]
  rw [if_neg (by omega : ¬(pre.length + 8 + 4 + m.length + 15 + 4 + 4 < 35 + m.data.length))]
  have : pre.length + 8 + 4 + m.length + 15 + 4 + 4 - (35 + m.data.length) = pre.length := by
    omega
  rw [this]

theorem GoRes.ok_of_bind {α β : Type} {x : GoRes α} {f : α → GoRes β} {b : β}
    (h : (x >>= f) = .ok b) : ∃ a, x = .ok a ∧ f a = .ok b := by
  cases x with
  | ok a => exact ⟨a, rfl, h⟩
  | err e => exact GoRes.noConfusion h
  | panics => exact GoRes.noConfusion h

/-- Any successful `readEntry` passes the final CRC gate, so the
returned entry's `Crc32` is the Castagnoli checksum of its `Data`. -/
theorem readEntry_ok_crc {s s' : ByteStream} {e : Entry}
    (h : readEntry s = .ok (e, s')) : e.crc32 = crc32c e.data := by
  unfold readEntry at h
  obtain ⟨⟨ib, sa⟩, _, h⟩ := GoRes.ok_of_bind h
  obtain ⟨⟨lb, sb⟩, _, h⟩ := GoRes.ok_of_bind h
  obtain ⟨⟨db, sc⟩, _, h⟩ := GoRes.ok_of_bind h
  obtain ⟨⟨tb, sd⟩, _, h⟩ := GoRes.ok_of_bind h
  obtain ⟨ts, _, h⟩ := GoRes.ok_of_bind h
  obtain ⟨⟨cb, se⟩, _, h⟩ := GoRes.ok_of_bind h
  obtain ⟨⟨tlb, sf⟩, _, h⟩ := GoRes.ok_of_bind h
  have h' : (if crc32c db ≠ fromLE cb then (GoRes.err GoErr.crcMismatch : GoRes (Entry × ByteStream))
      else GoRes.ok (⟨fromLE ib, fromLE tlb, db, ts, fromLE cb⟩, sf)) = GoRes.ok (e, s') := h
  by_cases hc : crc32c db ≠ fromLE cb
  · rw [if_pos hc] at h'
    exact GoRes.noConfusion h'
  · rw [if_neg hc] at h'
    injection h' with h''
    injection h'' with he _hs
    subst he
    exact (not_not.mp hc).symm

/-- Evaluation of `readEntry` on an arbitrary raw frame whose fields
need not be mutually consistent: the returned `Length` is the trailer
value, `Data` has the header length, and a CRC field that is not
`CRC32C(data)` yields `CrcMismatch`. -/
theorem readEntry_raw (idx hl : Nat) (data : List Nat) (t : GoTime) (crc tl : Nat)
    (hhl : hl = data.length) (hhl32 : hl < 2 ^ 32) (ht : t.wf)
    (hidx : idx < 2 ^ 64) (hcrc32 : crc < 2 ^ 32) (htl32 : tl < 2 ^ 32) :
    readEntry ⟨leBytes 8 idx ++ (leBytes 4 hl ++ (data ++ (marshalTime t ++
        (leBytes 4 crc ++ leBytes 4 tl)))), 0⟩ =
      if crc32c data ≠ crc then .err .crcMismatch
      else .ok (⟨idx, tl, data, t, crc⟩,
        ⟨leBytes 8 idx ++ (leBytes 4 hl ++ (data ++ (marshalTime t ++
          (leBytes 4 crc ++ leBytes 4 tl)))), 35 + data.length⟩) := by
  have e256 : (256 : Nat) ^ 4 = 2 ^ 32 := by norm_num
  have e1 : fromLE (leBytes 8 idx) = idx := by
    apply fromLE_leBytes
    have : (256 : Nat) ^ 8 = 2 ^ 64 := by norm_num
    omega
  have e2 : fromLE (leBytes 4 hl) = hl := fromLE_leBytes _ _ (by omega)
  have e5 : fromLE (leBytes 4 crc) = crc := fromLE_leBytes _ _ (by omega)
  have e6 : fromLE (leBytes 4 tl) = tl := fromLE_leBytes _ _ (by omega)
  have h0 : (leBytes 8 idx ++ (leBytes 4 hl ++ (data ++ (marshalTime t ++
      (leBytes 4 crc ++ leBytes 4 tl))))).drop 0 = leBytes 8 idx ++ (leBytes 4 hl ++ (data ++
      (marshalTime t ++ (leBytes 4 crc ++ leBytes 4 tl)))) := List.drop_zero _
  have hp0 : 0 ≤ (leBytes 8 idx ++ (leBytes 4 hl ++ (data ++ (marshalTime t ++
      (leBytes 4 crc ++ leBytes 4 tl))))).length := Nat.zero_le _
  obtain ⟨r1, h1, q1⟩ := readBytes_step h0 (leBytes_length 8 idx) hp0
  obtain ⟨r2, h2, q2⟩ := readBytes_step h1 (leBytes_length 4 hl) q1
  obtain ⟨r3, h3, q3⟩ := readBytes_step h2 hhl.symm q2
  obtain ⟨r4, h4, q4⟩ := readBytes_step h3 (marshalTime_length t) q3
  obtain ⟨r5, h5, q5⟩ := readBytes_step h4 (leBytes_length 4 crc) q4
  obtain ⟨r6, _h6, _q6⟩ := readBytes_step h5 (leBytes_length 4 tl) q5
  simp only [readEntry, r1, GoRes.bind_ok, e1, r2, e2, r3, r4,
    unmarshalTime_marshalTime t ht, r5, e5, r6, e6]
  have harith : 0 + 8 + 4 + hl + 15 + 4 + 4 = 35 + data.length := by omega
  rw [harith]

/-- C2: for every entry whose `Timestamp` is a UTC-normalized
representable instant, whose `Crc32` equals `CRC32C(Data)` and whose
`Length` equals `len(Data)` (plus the bounds Go's `uint64`/`uint32`/
`[]byte` types guarantee, collected in `Entry.wf`), `writeEntry`
produces exactly `35 + Length` bytes and `readEntry` on those bytes
returns an entry equal to `E`, timestamp included. -/
theorem claim_C2 (m : Entry) (hwf : m.wf) :
    (writeEntryBytes m).length = 35 + m.length ∧
    readEntry ⟨writeEntryBytes m, 0⟩ = .ok (m, ⟨writeEntryBytes m, 35 + m.length⟩) := by
  have h := readEntry_writeEntryBytes m [] [] hwf
  constructor
  · rw [writeEntryBytes_length m hwf.1, hwf.1]
  · simpa [hwf.1] using h

theorem claim_C2_witness :
    (⟨3, 1, [7], ⟨100, 5⟩, crc32c [7]⟩ : Entry).wf ∧
    ((writeEntryBytes ⟨3, 1, [7], ⟨100, 5⟩, crc32c [7]⟩).length =
        35 + (⟨3, 1, [7], ⟨100, 5⟩, crc32c [7]⟩ : Entry).length ∧
      readEntry ⟨writeEntryBytes ⟨3, 1, [7], ⟨100, 5⟩, crc32c [7]⟩, 0⟩ =
        .ok (⟨3, 1, [7], ⟨100, 5⟩, crc32c [7]⟩,
          ⟨writeEntryBytes ⟨3, 1, [7], ⟨100, 5⟩, crc32c [7]⟩,
            35 + (⟨3, 1, [7], ⟨100, 5⟩, crc32c [7]⟩ : Entry).length⟩)) :=
  ⟨by decide, claim_C2 _ (by decide)⟩

/-- C7: a stream positioned immediately after an encoded well-formed
entry `E` (any prefix before it, any bytes after it) is repositioned by
`gotoPreviousEntry` to the first byte of `E` — the trailer gives
`L = len(data)` and the seek moves back `L + 35` bytes — after which
`readPreviousEntry` returns `E` (ending where it started); at offset 0
both fail with `NoPreviousEntry`, before any seek is performed. -/
theorem claim_C7 (m : Entry) (pre suf d0 : List Nat) (hwf : m.wf) :
    (gotoPreviousEntry ⟨pre ++ (writeEntryBytes m ++ suf), pre.length + (35 + m.data.length)⟩ =
        .ok ⟨pre ++ (writeEntryBytes m ++ suf), pre.length⟩) ∧
    (readPreviousEntry ⟨pre ++ (writeEntryBytes m ++ suf), pre.length + (35 + m.data.length)⟩ =
        .ok (m, ⟨pre ++ (writeEntryBytes m ++ suf), pre.length + (35 + m.data.length)⟩)) ∧
    gotoPreviousEntry ⟨d0, 0⟩ = .err .noPreviousEntry ∧
    readPreviousEntry ⟨d0, 0⟩ = .err .noPreviousEntry := by
  refine ⟨gotoPreviousEntry_after m pre suf hwf, ?_, ?_, ?_⟩
  · unfold readPreviousEntry
    rw [gotoPreviousEntry_after m pre suf hwf, GoRes.bind_ok,
      readEntry_writeEntryBytes m pre suf hwf]
  · simp [gotoPreviousEntry]
  · simp [readPreviousEntry, gotoPreviousEntry]

theorem claim_C7_witness :
    (⟨3, 1, [7], ⟨100, 5⟩, crc32c [7]⟩ : Entry).wf ∧
    gotoPreviousEntry ⟨[9] ++ (writeEntryBytes ⟨3, 1, [7], ⟨100, 5⟩, crc32c [7]⟩ ++ [4]),
        [9].length + (35 + 1)⟩ =
      .ok ⟨[9] ++ (writeEntryBytes ⟨3, 1, [7], ⟨100, 5⟩, crc32c [7]⟩ ++ [4]), [9].length⟩ :=
  ⟨by decide, (claim_C7 _ [9] [4] [] (by decide)).1⟩

/-- C8 counterexample: a frame whose header length is 0 but whose
trailer length is 1 and whose CRC is valid (`CRC32C([]) = 0`) is
*accepted* by `readEntry`, and the returned entry has
`len(Data) = 0 ≠ 1 = Length` — refuting `len(Data) == Length`. -/
theorem claim_C8_counterexample :
    readEntry ⟨leBytes 8 0 ++ (leBytes 4 0 ++ (marshalTime ⟨0, 0⟩ ++
        (leBytes 4 0 ++ leBytes 4 1))), 0⟩ =
      .ok (⟨0, 1, [], ⟨0, 0⟩, 0⟩,
        ⟨leBytes 8 0 ++ (leBytes 4 0 ++ (marshalTime ⟨0, 0⟩ ++
          (leBytes 4 0 ++ leBytes 4 1))), 35⟩) ∧
    (⟨0, 1, [], ⟨0, 0⟩, 0⟩ : Entry).data.length ≠ (⟨0, 1, [], ⟨0, 0⟩, 0⟩ : Entry).length := by
  constructor
  · decide
  · decide

/-- C8 (amended): every successfully returned entry satisfies
`Crc32 == CRC32C(Data)`, and a frame whose stored CRC differs from
`CRC32C` of its stored data fails with `CrcMismatch`; but the returned
`Length` is read from the *trailer* while `Data` has the *header*
length, so `len(Data) == Length` holds only when the two length fields
agree (refuted above when they differ). -/
theorem claim_C8 (idx hl : Nat) (data : List Nat) (t : GoTime) (crc tl : Nat)
    (hhl : hl = data.length) (hhl32 : hl < 2 ^ 32) (ht : t.wf)
    (hidx : idx < 2 ^ 64) (hcrc32 : crc < 2 ^ 32) (htl32 : tl < 2 ^ 32) :
    (∀ (s s' : ByteStream) (e : Entry), readEntry s = .ok (e, s') → e.crc32 = crc32c e.data) ∧
    (crc ≠ crc32c data →
      readEntry ⟨leBytes 8 idx ++ (leBytes 4 hl ++ (data ++ (marshalTime t ++
          (leBytes 4 crc ++ leBytes 4 tl)))), 0⟩ = .err .crcMismatch) ∧
    (crc = crc32c data →
      readEntry ⟨leBytes 8 idx ++ (leBytes 4 hl ++ (data ++ (marshalTime t ++
          (leBytes 4 crc ++ leBytes 4 tl)))), 0⟩ =
        .ok (⟨idx, tl, data, t, crc⟩,
          ⟨leBytes 8 idx ++ (leBytes 4 hl ++ (data ++ (marshalTime t ++
            (leBytes 4 crc ++ leBytes 4 tl)))), 35 + data.length⟩)) := by
  have hraw := readEntry_raw idx hl data t crc tl hhl hhl32 ht hidx hcrc32 htl32
  refine ⟨fun s s' e h => readEntry_ok_crc h, fun hne => ?_, fun heq => ?_⟩
  · rw [hraw, if_pos (fun hcc => hne hcc.symm)]
  · rw [hraw, if_neg (not_not_intro heq.symm)]

theorem claim_C8_witness :
    (0 : Nat) = List.length ([] : List Nat) ∧ (0 : Nat) < 2 ^ 32 ∧ GoTime.wf ⟨0, 0⟩ ∧
    (0 : Nat) < 2 ^ 64 ∧ (0 : Nat) < 2 ^ 32 ∧ (2 : Nat) < 2 ^ 32 ∧
    ((∀ (s s' : ByteStream) (e : Entry),
        readEntry s = .ok (e, s') → e.crc32 = crc32c e.data) ∧
      ((0 : Nat) ≠ crc32c [] →
        readEntry ⟨leBytes 8 0 ++ (leBytes 4 0 ++ (([] : List Nat) ++ (marshalTime ⟨0, 0⟩ ++
            (leBytes 4 0 ++ leBytes 4 2)))), 0⟩ = .err .crcMismatch) ∧
      ((0 : Nat) = crc32c [] →
        readEntry ⟨leBytes 8 0 ++ (leBytes 4 0 ++ (([] : List Nat) ++ (marshalTime ⟨0, 0⟩ ++
            (leBytes 4 0 ++ leBytes 4 2)))), 0⟩ =
          .ok (⟨0, 2, [], ⟨0, 0⟩, 0⟩,
            ⟨leBytes 8 0 ++ (leBytes 4 0 ++ (([] : List Nat) ++ (marshalTime ⟨0, 0⟩ ++
              (leBytes 4 0 ++ leBytes 4 2)))), 35 + List.length ([] : List Nat)⟩))) :=
  ⟨rfl, by decide, by decide, by decide, by decide, by decide,
    claim_C8 0 0 [] ⟨0, 0⟩ 0 2 rfl (by decide) (by decide) (by decide) (by decide) (by decide)⟩

/-! ## Basic facts about the model -/

theorem updateLast_concat (f : Segment → Segment) (l : List Segment) (x : Segment) :
    updateLast f (l ++ [x]) = l ++ [f x] := by
  induction l with
  | nil => rfl
  | cons a l ih =>
      cases l with
      | nil => rfl
      | cons b l' => simpa [updateLast] using ih

theorem updateLast_length (f : Segment → Segment) (l : List Segment) :
    (updateLast f l).length = l.length := by
  induction l with
  | nil => rfl
  | cons a l ih =>
      cases l with
      | nil => rfl
      | cons b l' => simpa [updateLast] using ih

/-- C3: `Wal.Write` cycles exactly when `MaxSegmentSize > 0` and the
active segment's `file_length ≥ MaxSegmentSize`.  A cycle closes the
(flushed) old active segment in place — retaining it in `segments` —
and appends a fresh active segment with `first_index = last_index =`
the log's next index and `file_length = 0`, into which the new entry is
then written; otherwise the entry goes to the unchanged active segment. -/
theorem claim_C3 (w : Wal) (msg : List Nat) (now : GoTime) (cur : Segment)
    (hcur : w.segments.getLast? = some cur) :
    ((w.config.maxSegmentSize ≠ 0 ∧ cur.fileLength ≥ w.config.maxSegmentSize) →
      walWrite w msg now = .ok ⟨updateLast segClose w.segments ++
          [segWrite (createSegment w.index) (newMessage w.index msg now)],
        w.config, (w.index + 1) % 2 ^ 64⟩ ∧
      (createSegment w.index).firstIndex = w.index ∧
      (createSegment w.index).lastIndex = w.index ∧
      (createSegment w.index).fileLength = 0 ∧
      (segClose cur).isOpen = false ∧
      (updateLast segClose w.segments ++
        [segWrite (createSegment w.index) (newMessage w.index msg now)]).length =
          w.segments.length + 1) ∧
    (¬(w.config.maxSegmentSize ≠ 0 ∧ cur.fileLength ≥ w.config.maxSegmentSize) →
      walWrite w msg now =
        .ok ⟨updateLast (fun s => segWrite s (newMessage w.index msg now)) w.segments,
          w.config, (w.index + 1) % 2 ^ 64⟩ ∧
      (updateLast (fun s => segWrite s (newMessage w.index msg now)) w.segments).length =
        w.segments.length) := by
  constructor
  · intro hc
    refine ⟨?_, rfl, rfl, rfl, rfl, by simp [updateLast_length]⟩
    simp only [walWrite, hcur, if_pos hc, walCycle, walClose]
    rw [updateLast_concat]
  · intro hc
    refine ⟨?_, updateLast_length _ _⟩
    simp only [walWrite, hcur, if_neg hc]

theorem claim_C3_witness :
    (walNew ⟨0, 0, 0, 0⟩).segments.getLast? = some (createSegment 0) ∧
    ((¬((walNew ⟨0, 0, 0, 0⟩).config.maxSegmentSize ≠ 0 ∧
        (createSegment 0).fileLength ≥ (walNew ⟨0, 0, 0, 0⟩).config.maxSegmentSize)) →
      walWrite (walNew ⟨0, 0, 0, 0⟩) [7] ⟨1, 0⟩ =
        .ok ⟨updateLast (fun s => segWrite s (newMessage (walNew ⟨0, 0, 0, 0⟩).index [7] ⟨1, 0⟩))
            (walNew ⟨0, 0, 0, 0⟩).segments,
          (walNew ⟨0, 0, 0, 0⟩).config, ((walNew ⟨0, 0, 0, 0⟩).index + 1) % 2 ^ 64⟩ ∧
      (updateLast (fun s => segWrite s (newMessage (walNew ⟨0, 0, 0, 0⟩).index [7] ⟨1, 0⟩))
        (walNew ⟨0, 0, 0, 0⟩).segments).length = (walNew ⟨0, 0, 0, 0⟩).segments.length) :=
  ⟨rfl, (claim_C3 (walNew ⟨0, 0, 0, 0⟩) [7] ⟨1, 0⟩ (createSegment 0) rfl).2⟩

/-- C10: `Load` of a directory with a readable, well-formed
`config.json` but no `.wal` file reaches `wal.segments[len(wal.segments)-1]`
with an empty slice — a runtime panic — instead of returning an error
such as `NoSegmentsFound`. -/
theorem claim_C10 (cfg : Config) :
    loadWal [] cfg = GoRes.panics ∧ ∀ e : GoErr, loadWal [] cfg ≠ GoRes.err e := by
  refine ⟨rfl, fun e h => ?_⟩
  rw [show loadWal [] cfg = GoRes.panics from rfl] at h
  exact GoRes.noConfusion h

/-- C9 counterexample: with `WithIndex(0)` applied before
`WithTimestamp(t)`, opening a Reader *succeeds* (index 0 defeats the
`reader.index != 0` check), refuting "fails for every index value i
regardless of order". -/
theorem claim_C9_counterexample :
    isOk ((buildWal ⟨0, 0, 0, 0⟩ [([], ⟨1, 0⟩)]) >>= fun w =>
      walReader w [.withIndex 0, .withTimestamp ⟨5, 0⟩]) = true ∧
    ((buildWal ⟨0, 0, 0, 0⟩ [([], ⟨1, 0⟩)]) >>= fun w =>
      walReader w [.withIndex 0, .withTimestamp ⟨5, 0⟩]) ≠
        GoRes.err GoErr.indexAndTimestampSet := by
  constructor
  · decide
  · decide

/-- C9 (amended): for every *non-zero* index `i` and non-zero timestamp
`t`, opening a Reader with both options fails with
`IndexAndTimestampSet` in either order.  (With `i = 0`, or `t` the zero
time, the flag-style guards cannot see the other option was set and the
order decides the outcome — see the counterexample.) -/
theorem claim_C9 (w : Wal) (i : Nat) (t : GoTime) (hi : i ≠ 0) (ht : t ≠ GoTime.zero) :
    walReader w [.withIndex i, .withTimestamp t] = .err .indexAndTimestampSet ∧
    walReader w [.withTimestamp t, .withIndex i] = .err .indexAndTimestampSet := by
  constructor <;>
    simp [walReader, applyReaderOption, GoTime.isZero, hi, ht, List.foldlM_cons, List.foldlM_nil]

theorem claim_C9_witness :
    (1 : Nat) ≠ 0 ∧ (⟨5, 0⟩ : GoTime) ≠ GoTime.zero ∧
    (walReader (walNew ⟨0, 0, 0, 0⟩) [.withIndex 1, .withTimestamp ⟨5, 0⟩] =
        .err .indexAndTimestampSet ∧
      walReader (walNew ⟨0, 0, 0, 0⟩) [.withTimestamp ⟨5, 0⟩, .withIndex 1] =
        .err .indexAndTimestampSet) :=
  ⟨by decide, by decide, claim_C9 (walNew ⟨0, 0, 0, 0⟩) 1 ⟨5, 0⟩ (by decide) (by decide)⟩

theorem mkEntries_length (n : Nat) (msgs : List (List Nat × GoTime)) :
    (mkEntries n msgs).length = msgs.length := by
  induction msgs generalizing n with
  | nil => rfl
  | cons m rest ih => simp [mkEntries, ih]

theorem mkEntries_append (n : Nat) (a b : List (List Nat × GoTime)) :
    mkEntries n (a ++ b) = mkEntries n a ++ mkEntries (n + a.length) b := by
  induction a generalizing n with
  | nil => simp [mkEntries]
  | cons m rest ih =>
      simp only [List.cons_append, mkEntries, List.length_cons, List.append_eq, ih]
      rw [show n + 1 + rest.length = n + (rest.length + 1) by omega]

theorem mkEntries_getElem? (n : Nat) (msgs : List (List Nat × GoTime)) (k : Nat) :
    (mkEntries n msgs)[k]? = (msgs[k]?).map (fun m => newMessage (n + k) m.1 m.2) := by
  induction msgs generalizing n k with
  | nil => simp [mkEntries]
  | cons m rest ih =>
      cases k with
      | zero => simp [mkEntries]
      | succ k =>
          simp only [mkEntries, List.getElem?_cons_succ, ih]
          rw [show n + 1 + k = n + (k + 1) by omega]

theorem sizeSum_append (a b : List Entry) :
    sizeSum (a ++ b) = sizeSum a + sizeSum b := by
  induction a with
  | nil => simp [sizeSum]
  | cons e a ih => simp [sizeSum, List.append_eq, ih]; omega

theorem sizeSum_mkEntries (n : Nat) (msgs : List (List Nat × GoTime)) :
    sizeSum (mkEntries n msgs) = msgsSize msgs := by
  induction msgs generalizing n with
  | nil => rfl
  | cons m rest ih =>
      simp [mkEntries, sizeSum, msgsSize, Entry.size, ConstEntrySize, newMessage, ih]

theorem length_le_msgsSize (msgs : List (List Nat × GoTime)) :
    msgs.length ≤ msgsSize msgs := by
  induction msgs with
  | nil => simp [msgsSize]
  | cons m rest ih => simp [msgsSize]; omega

theorem catEntries_append (a b : List Segment) :
    catEntries (a ++ b) = catEntries a ++ catEntries b := by
  induction a with
  | nil => rfl
  | cons s a ih => simp [catEntries, ih]

theorem entLen_append (a b : List Segment) :
    entLen (a ++ b) = entLen a + entLen b := by
  induction a with
  | nil => simp [entLen]
  | cons s a ih => simp [entLen, List.append_eq, ih]; omega

theorem catEntries_length (l : List Segment) :
    (catEntries l).length = entLen l := by
  induction l with
  | nil => rfl
  | cons s r ih => simp [catEntries, entLen, ih]

theorem chainWF_append (n : Nat) (a b : List Segment) :
    chainWF n (a ++ b) ↔ chainWF n a ∧ chainWF (n + entLen a) b := by
  induction a generalizing n with
  | nil => simp [chainWF, entLen]
  | cons s a ih =>
      simp only [List.cons_append, chainWF, List.append_eq, ih, entLen]
      constructor
      · rintro ⟨h1, h2, h3, h4⟩
        exact ⟨⟨h1, h2, h3⟩, by rwa [show n + (s.entries.length + entLen a) =
          n + s.entries.length + entLen a by omega]⟩
      · rintro ⟨⟨h1, h2, h3⟩, h4⟩
        exact ⟨h1, h2, h3, by rwa [show n + (s.entries.length + entLen a) =
          n + s.entries.length + entLen a by omega] at h4⟩

theorem exists_last_decomp {l : List Segment} (h : l ≠ []) : ∃ a x, l = a ++ [x] := by
  induction l with
  | nil => exact absurd rfl h
  | cons s r ih =>
      cases r with
      | nil => exact ⟨[], s, rfl⟩
      | cons t r' =>
          obtain ⟨a, x, hax⟩ := ih (by simp)
          exact ⟨s :: a, x, by rw [hax]; rfl⟩

theorem segWF_segClose {s : Segment} (h : segWF s) : segWF (segClose s) := h

theorem segWF_createSegment (n : Nat) : segWF (createSegment n) := by
  refine ⟨rfl, rfl, by norm_num [sizeSum], ?_, ?_, fun _ => ⟨rfl, rfl, rfl⟩, ?_, ?_⟩
  · intro k e h
    simp [createSegment] at h
  · intro e h
    simp [createSegment] at h
  · intro e0 h
    simp [createSegment] at h
  · intro eL h
    simp [createSegment] at h

theorem sizeSum_pos {es : List Entry} (h : es ≠ []) : 0 < sizeSum es := by
  cases es with
  | nil => exact absurd rfl h
  | cons e r => simp [sizeSum, Entry.size, ConstEntrySize]

theorem msgsSize_append (a b : List (List Nat × GoTime)) :
    msgsSize (a ++ b) = msgsSize a + msgsSize b := by
  induction a with
  | nil => simp [msgsSize]
  | cons m a ih => simp [msgsSize, List.append_eq, ih]; omega

theorem segWF_segWrite {s : Segment} {e : Entry} (hwf : segWF s)
    (hidx : e.index = s.firstIndex + s.entries.length)
    (hcrc : e.crc32 = crc32c e.data)
    (hlen : e.length = e.data.length % 2 ^ 32)
    (hsz : sizeSum s.entries + e.size < 2 ^ 64) :
    segWF (segWrite s e) := by
  obtain ⟨hp, hf, _hb, hix, hval, _hemp, hhd, _hlast⟩ := hwf
  refine ⟨hp, ?_, ?_, ?_, ?_, ?_, ?_, ?_⟩
  · show (s.fileLength + e.size) % 2 ^ 64 = sizeSum (s.entries ++ [e])
    rw [sizeSum_append, hf]
    have h1 : sizeSum [e] = e.size := by simp [sizeSum]
    rw [h1, Nat.mod_eq_of_lt hsz]
  · show sizeSum (s.entries ++ [e]) < 2 ^ 64
    rw [sizeSum_append]
    have h1 : sizeSum [e] = e.size := by simp [sizeSum]
    omega
  · intro k ei hk
    show ei.index = s.firstIndex + k
    by_cases hlt : k < s.entries.length
    · rw [show (segWrite s e).entries = s.entries ++ [e] from rfl,
        List.getElem?_append_left hlt] at hk
      exact hix k ei hk
    · rw [show (segWrite s e).entries = s.entries ++ [e] from rfl,
        List.getElem?_append_right (by omega)] at hk
      cases hkk : k - s.entries.length with
      | zero =>
          rw [hkk] at hk
          simp at hk
          subst hk
          omega
      | succ k' =>
          rw [hkk] at hk
          simp at hk
  · intro ei hmem
    rcases List.mem_append.mp hmem with hm | hm
    · exact hval ei hm
    · simp at hm
      subst hm
      exact ⟨hcrc, hlen⟩
  · intro habs
    have habs' : s.entries ++ [e] = [] := habs
    simp at habs'
  · intro e0 hh
    show (if s.fileLength = 0 then e.timestamp else s.firstTimestamp) = e0.timestamp
    cases hse : s.entries with
    | nil =>
        rw [show (segWrite s e).entries = s.entries ++ [e] from rfl, hse] at hh
        simp at hh
        subst hh
        rw [if_pos (by rw [hf, hse]; rfl)]
    | cons x r =>
        rw [show (segWrite s e).entries = s.entries ++ [e] from rfl, hse] at hh
        simp at hh
        have hpos : 0 < sizeSum s.entries := sizeSum_pos (by rw [hse]; simp)
        rw [if_neg (by omega)]
        subst hh
        exact hhd x (by rw [hse]; rfl)
  · intro eL hl
    rw [show (segWrite s e).entries = s.entries ++ [e] from rfl, List.getLast?_concat] at hl
    injection hl with hl
    subst hl
    exact ⟨rfl, rfl⟩

/-- One `Wal.Write` preserves the writer invariant (given room in the
uint64 byte counter for the new entry). -/
theorem walWrite_WF {w : Wal} {msgs : List (List Nat × GoTime)} (d : List Nat) (t : GoTime)
    (hwf : WalWF w msgs) (hsz : msgsSize msgs + (35 + d.length) < 2 ^ 64) :
    ∃ w', walWrite w d t = .ok w' ∧ WalWF w' (msgs ++ [(d, t)]) := by
  obtain ⟨hne, hchain, hinit, hcat, hN, _hlastne⟩ := hwf
  obtain ⟨init, lastS, hdecomp⟩ := exists_last_decomp hne
  have hgetlast : w.segments.getLast? = some lastS := by
    rw [hdecomp]
    exact List.getLast?_concat _
  have hsplit := (chainWF_append 0 init [lastS]).mp (by rw [← hdecomp]; exact hchain)
  have hchain_init : chainWF 0 init := hsplit.1
  have hlastF : lastS.firstIndex = 0 + entLen init := hsplit.2.1
  have hsegwf_last : segWF lastS := hsplit.2.2.1
  have hcat' : catEntries init ++ lastS.entries = mkEntries 0 msgs := by
    rw [← hcat, hdecomp, catEntries_append]
    simp [catEntries]
  have hlen_eq : entLen init + lastS.entries.length = msgs.length := by
    have h1 : (catEntries init ++ lastS.entries).length = msgs.length := by
      rw [hcat', mkEntries_length]
    simp only [List.length_append, catEntries_length] at h1
    omega
  have hsizes : sizeSum (catEntries init) + sizeSum lastS.entries = msgsSize msgs := by
    have h2 := congrArg sizeSum hcat'
    rwa [sizeSum_append, sizeSum_mkEntries] at h2
  have hNlt : msgs.length + 1 < 2 ^ 64 := by
    have := length_le_msgsSize msgs
    omega
  have hmodN : (w.index + 1) % 2 ^ 64 = msgs.length + 1 := by
    rw [hN]
    exact Nat.mod_eq_of_lt hNlt
  by_cases hc : w.config.maxSegmentSize ≠ 0 ∧ lastS.fileLength ≥ w.config.maxSegmentSize
  · -- cycle
    have hlne : lastS.entries ≠ [] := by
      intro habs
      have h0 : lastS.fileLength = 0 := by
        rw [hsegwf_last.2.1, habs]
        rfl
      omega
    refine ⟨⟨(init ++ [segClose lastS]) ++
        [segWrite (createSegment w.index) (newMessage w.index d t)],
      w.config, (w.index + 1) % 2 ^ 64⟩, ?_, ?_⟩
    · simp only [walWrite, hgetlast, if_pos hc, walCycle, walClose]
      have hseg1 : updateLast segClose w.segments = init ++ [segClose lastS] := by
        rw [hdecomp, updateLast_concat]
      rw [hseg1, updateLast_concat]
    · refine ⟨by simp, ?_, ?_, ?_, ?_, ?_⟩
      · apply (chainWF_append 0 (init ++ [segClose lastS]) _).mpr
        refine ⟨(chainWF_append 0 init _).mpr ⟨hchain_init, hlastF, segWF_segClose hsegwf_last,
          trivial⟩, ?_, ?_, trivial⟩
        · show w.index = 0 + entLen (init ++ [segClose lastS])
          rw [entLen_append, hN]
          show msgs.length = 0 + (entLen init + (lastS.entries.length + entLen []))
          simp [entLen]
          omega
        · apply segWF_segWrite (segWF_createSegment w.index)
          · show (newMessage w.index d t).index = w.index + ([] : List Entry).length
            simp [newMessage]
          · rfl
          · rfl
          · show sizeSum [] + (newMessage w.index d t).size < 2 ^ 64
            have : (newMessage w.index d t).size = 35 + d.length := rfl
            simp only [sizeSum]
            omega
      · intro s hs
        rw [List.dropLast_concat] at hs
        rcases List.mem_append.mp hs with hm | hm
        · exact hinit s (by rw [hdecomp, List.dropLast_concat]; exact hm)
        · simp at hm
          subst hm
          exact hlne
      · show catEntries ((init ++ [segClose lastS]) ++
            [segWrite (createSegment w.index) (newMessage w.index d t)]) =
          mkEntries 0 (msgs ++ [(d, t)])
        rw [catEntries_append, catEntries_append, mkEntries_append]
        show catEntries init ++ (lastS.entries ++ catEntries []) ++
            (([] ++ [newMessage w.index d t]) ++ catEntries []) =
          mkEntries 0 msgs ++ mkEntries (0 + msgs.length) [(d, t)]
        simp only [catEntries, List.append_nil, List.nil_append]
        rw [← hcat', hN]
        simp [mkEntries, List.append_assoc]
      · show (w.index + 1) % 2 ^ 64 = (msgs ++ [(d, t)]).length
        rw [hmodN]
        simp
      · intro _ sl hsl
        rw [List.getLast?_concat] at hsl
        injection hsl with hsl
        subst hsl
        show ([] : List Entry) ++ [newMessage w.index d t] ≠ []
        simp
  · -- no cycle
    refine ⟨⟨init ++ [segWrite lastS (newMessage w.index d t)], w.config,
      (w.index + 1) % 2 ^ 64⟩, ?_, ?_⟩
    · simp only [walWrite, hgetlast, if_neg hc]
      have hseg : updateLast (fun s => segWrite s (newMessage w.index d t)) w.segments =
          init ++ [segWrite lastS (newMessage w.index d t)] := by
        rw [hdecomp, updateLast_concat]
      rw [hseg]
    · refine ⟨by simp, ?_, ?_, ?_, ?_, ?_⟩
      · apply (chainWF_append 0 init _).mpr
        refine ⟨hchain_init, hlastF, ?_, trivial⟩
        apply segWF_segWrite hsegwf_last
        · show (newMessage w.index d t).index = lastS.firstIndex + lastS.entries.length
          show w.index = lastS.firstIndex + lastS.entries.length
          omega
        · rfl
        · rfl
        · have : (newMessage w.index d t).size = 35 + d.length := rfl
          omega
      · intro s hs
        rw [List.dropLast_concat] at hs
        exact hinit s (by rw [hdecomp, List.dropLast_concat]; exact hs)
      · show catEntries (init ++ [segWrite lastS (newMessage w.index d t)]) =
          mkEntries 0 (msgs ++ [(d, t)])
        rw [catEntries_append, mkEntries_append]
        show catEntries init ++ ((lastS.entries ++ [newMessage w.index d t]) ++ catEntries []) =
          mkEntries 0 msgs ++ mkEntries (0 + msgs.length) [(d, t)]
        simp only [catEntries, List.append_nil]
        rw [← hcat', hN]
        simp [mkEntries, List.append_assoc]
      · show (w.index + 1) % 2 ^ 64 = (msgs ++ [(d, t)]).length
        rw [hmodN]
        simp
      · intro _ sl hsl
        rw [List.getLast?_concat] at hsl
        injection hsl with hsl
        subst hsl
        show lastS.entries ++ [newMessage w.index d t] ≠ []
        simp

theorem walNew_WF (cfg : Config) : WalWF (walNew cfg) [] := by
  refine ⟨by simp [walNew], ⟨rfl, segWF_createSegment 0, trivial⟩, ?_, rfl, rfl, ?_⟩
  · intro s hs
    simp [walNew, createSegment] at hs
  · intro h
    exact absurd rfl h

/-- `New` followed by any append sequence whose total on-disk size fits
the uint64 byte counter succeeds and satisfies the writer invariant. -/
theorem buildWal_WF (cfg : Config) (msgs : List (List Nat × GoTime))
    (hsz : msgsSize msgs < 2 ^ 64) :
    ∃ w, buildWal cfg msgs = .ok w ∧ WalWF w msgs := by
  suffices h : ∀ (rest pre : List (List Nat × GoTime)) (w0 : Wal), WalWF w0 pre →
      msgsSize (pre ++ rest) < 2 ^ 64 →
      ∃ w, List.foldlM (fun w m => walWrite w m.1 m.2) w0 rest = .ok w ∧
        WalWF w (pre ++ rest) by
    have h2 := h msgs [] (walNew cfg) (walNew_WF cfg) (by simpa using hsz)
    simpa [buildWal] using h2
  intro rest
  induction rest with
  | nil =>
      intro pre w0 hwf _
      exact ⟨w0, rfl, by simpa using hwf⟩
  | cons m rest ih =>
      intro pre w0 hwf hsz2
      have hszm : msgsSize pre + (35 + m.1.length) < 2 ^ 64 := by
        rw [msgsSize_append] at hsz2
        simp only [msgsSize] at hsz2
        omega
      obtain ⟨w1, hw1, hwf1⟩ := walWrite_WF m.1 m.2 hwf hszm
      obtain ⟨w, hfold, hwf'⟩ := ih (pre ++ [m]) w1 hwf1
        (by rw [List.append_assoc]; simpa [msgsSize] using hsz2)
      refine ⟨w, ?_, by rw [List.append_assoc] at hwf'; simpa using hwf'⟩
      rw [List.foldlM_cons, hw1, GoRes.bind_ok, hfold]

/-! ## Chain access lemmas -/

theorem getElem?_some_lt {α : Type} {l : List α} {k : Nat} {a : α}
    (h : l[k]? = some a) : k < l.length := by
  by_contra hk
  rw [List.getElem?_eq_none (by omega)] at h
  exact Option.noConfusion h

theorem mem_of_getElem?_some {α : Type} {l : List α} {k : Nat} {a : α}
    (h : l[k]? = some a) : a ∈ l := by
  have hlt := getElem?_some_lt h
  rw [List.getElem?_eq_getElem hlt] at h
  injection h with h
  subst h
  exact List.getElem_mem hlt

theorem chainWF_segWF : ∀ (segs : List Segment) (n j : Nat) (s : Segment),
    chainWF n segs → segs[j]? = some s → segWF s := by
  intro segs
  induction segs with
  | nil =>
      intro n j s _ hj
      simp at hj
  | cons s0 rest ih =>
      intro n j s hch hj
      obtain ⟨_, hwf0, hch'⟩ := hch
      cases j with
      | zero =>
          simp at hj
          subst hj
          exact hwf0
      | succ j' =>
          simp at hj
          exact ih _ j' s hch' hj

theorem chainWF_firstIndex_ge : ∀ (segs : List Segment) (n j : Nat) (s : Segment),
    chainWF n segs → segs[j]? = some s → n ≤ s.firstIndex := by
  intro segs
  induction segs with
  | nil =>
      intro n j s _ hj
      simp at hj
  | cons s0 rest ih =>
      intro n j s hch hj
      obtain ⟨hF, _, hch'⟩ := hch
      cases j with
      | zero =>
          simp at hj
          subst hj
          omega
      | succ j' =>
          simp at hj
          have := ih _ j' s hch' hj
          omega

theorem chainWF_seg_bound : ∀ (segs : List Segment) (n j : Nat) (s : Segment),
    chainWF n segs → segs[j]? = some s →
    s.firstIndex + s.entries.length ≤ n + entLen segs := by
  intro segs
  induction segs with
  | nil =>
      intro n j s _ hj
      simp at hj
  | cons s0 rest ih =>
      intro n j s hch hj
      obtain ⟨hF, _, hch'⟩ := hch
      cases j with
      | zero =>
          simp at hj
          subst hj
          simp [entLen]
          omega
      | succ j' =>
          simp at hj
          have := ih _ j' s hch' hj
          simp [entLen]
          omega

theorem chainWF_next : ∀ (segs : List Segment) (n j : Nat) (s s' : Segment),
    chainWF n segs → segs[j]? = some s → segs[j + 1]? = some s' →
    s'.firstIndex = s.firstIndex + s.entries.length := by
  intro segs
  induction segs with
  | nil =>
      intro n j s s' _ hj
      simp at hj
  | cons s0 rest ih =>
      intro n j s s' hch hj hj'
      obtain ⟨hF, _, hch'⟩ := hch
      cases j with
      | zero =>
          simp at hj hj'
          subst hj
          cases rest with
          | nil => simp at hj'
          | cons s1 rest' =>
              simp at hj'
              subst hj'
              obtain ⟨hF1, _, _⟩ := hch'
              omega
      | succ j' =>
          simp at hj hj'
          exact ih _ j' s s' hch' hj hj'

theorem chainWF_total : ∀ (segs : List Segment) (n j : Nat) (s : Segment),
    chainWF n segs → segs[j]? = some s → j + 1 = segs.length →
    n + entLen segs = s.firstIndex + s.entries.length := by
  intro segs
  induction segs with
  | nil =>
      intro n j s _ hj
      simp at hj
  | cons s0 rest ih =>
      intro n j s hch hj hlen
      obtain ⟨hF, _, hch'⟩ := hch
      cases j with
      | zero =>
          simp at hj hlen
          subst hj
          subst hlen
          simp [entLen]
          omega
      | succ j' =>
          simp at hj hlen
          have := ih _ j' s hch' hj (by omega)
          simp [entLen]
          omega

theorem chain_cat_get : ∀ (segs : List Segment) (n : Nat), chainWF n segs →
    ∀ (j k : Nat) (s : Segment) (e : Entry), segs[j]? = some s → s.entries[k]? = some e →
      (catEntries segs)[s.firstIndex + k - n]? = some e := by
  intro segs
  induction segs with
  | nil =>
      intro n _ j k s e hj
      simp at hj
  | cons s0 rest ih =>
      intro n hch j k s e hj hk
      obtain ⟨hF, _, hch'⟩ := hch
      cases j with
      | zero =>
          simp at hj
          subst hj
          have hklt : k < s0.entries.length := getElem?_some_lt hk
          simp only [catEntries]
          rw [show s0.firstIndex + k - n = k by omega, List.getElem?_append_left hklt]
          exact hk
      | succ j' =>
          simp at hj
          have hge := chainWF_firstIndex_ge rest (n + s0.entries.length) j' s hch' hj
          have hrec := ih (n + s0.entries.length) hch' j' k s e hj hk
          simp only [catEntries]
          rw [List.getElem?_append_right (by omega)]
          rw [show s.firstIndex + k - n - s0.entries.length =
            s.firstIndex + k - (n + s0.entries.length) by omega]
          exact hrec

theorem WalWF_allNE {w : Wal} {msgs : List (List Nat × GoTime)} (hwf : WalWF w msgs)
    (hm : msgs ≠ []) : ∀ s ∈ w.segments, s.entries ≠ [] := by
  obtain ⟨hne, _, hinit, _, _, hlastne⟩ := hwf
  obtain ⟨init, lastS, hdecomp⟩ := exists_last_decomp hne
  intro s hs
  rw [hdecomp] at hs
  rcases List.mem_append.mp hs with hm1 | hm1
  · exact hinit s (by rw [hdecomp, List.dropLast_concat]; exact hm1)
  · simp at hm1
    subst hm1
    exact hlastne hm s (by rw [hdecomp]; exact List.getLast?_concat _)

theorem chain_findIdx_path : ∀ (segs : List Segment) (n j : Nat) (s : Segment),
    chainWF n segs → (∀ x ∈ segs, x.entries ≠ []) → segs[j]? = some s →
    segs.findIdx? (fun x => x.path == s.path) = some j := by
  intro segs
  induction segs with
  | nil =>
      intro n j s _ _ hj
      simp at hj
  | cons s0 rest ih =>
      intro n j s hch hne hj
      obtain ⟨hF, hwf0, hch'⟩ := hch
      cases j with
      | zero =>
          simp at hj
          subst hj
          rw [List.findIdx?_cons]
          simp
      | succ j' =>
          simp at hj
          have hsWF := chainWF_segWF rest (n + s0.entries.length) j' s hch' hj
          have hge := chainWF_firstIndex_ge rest (n + s0.entries.length) j' s hch' hj
          have hlen0 : s0.entries.length ≥ 1 := by
            have := hne s0 (by simp)
            cases hse : s0.entries with
            | nil => exact absurd hse this
            | cons x r => simp [hse]
          have hneq : s0.path ≠ s.path := by
            rw [hwf0.1, hsWF.1]
            omega
          rw [List.findIdx?_cons]
          rw [if_neg (by simpa using hneq)]
          rw [List.findIdx?_succ, ih _ j' s hch' (fun x hx => hne x (by simp [hx])) hj]
          rfl

theorem readEntrySeg_ok {s : Segment} {e : Entry} (h : s.entries[s.pos]? = some e)
    (hcrc : e.crc32 = crc32c e.data) :
    readEntrySeg s = .ok (e, { s with pos := s.pos + 1 }) := by
  simp [readEntrySeg, h, hcrc]

theorem segWF_lastIndex {s : Segment} (h : segWF s) (hne : s.entries ≠ []) :
    s.lastIndex + 1 = s.firstIndex + s.entries.length := by
  obtain ⟨_, _, _, hix, _, _, _, hlast⟩ := h
  have hlen : 0 < s.entries.length := List.length_pos.mpr hne
  cases hsome : s.entries[s.entries.length - 1]? with
  | none =>
      rw [List.getElem?_eq_none_iff] at hsome
      omega
  | some eL =>
      have h1 := hix _ _ hsome
      have h2 := hlast eL (by rw [List.getLast?_eq_getElem?]; exact hsome)
      omega

theorem loadSegment_WF {s : Segment} (h : segWF s) :
    loadSegment s.path s.entries = .ok { s with isOpen := false, pos := 0 } := by
  obtain ⟨hp, hf, _, _hix, hval, hemp, hhd, hlast⟩ := h
  cases hse : s.entries with
  | nil =>
      obtain ⟨h1, h2, h3⟩ := hemp hse
      rw [hse] at hf
      simp only [sizeSum] at hf
      simp [loadSegment, hp, h1, h2, h3, hf]
  | cons e0 rest =>
      have hv0 := hval e0 (by rw [hse]; simp)
      have hL : (e0 :: rest).getLast? = some ((e0 :: rest).getLast (by simp)) :=
        List.getLast?_eq_getLast _ _
      have hvL := hval ((e0 :: rest).getLast (by simp)) (by rw [hse]; exact List.getLast_mem _)
      have hft := hhd e0 (by rw [hse]; rfl)
      have hlt := hlast ((e0 :: rest).getLast (by simp)) (by rw [hse]; exact hL)
      rw [hse] at hf
      simp [loadSegment, hL, hv0.1, hvL.1, hp, hft, hlt.1, hlt.2, hf]

/-- One `Next` step: below `msgs.length` it returns entry `k` (crossing
a segment boundary transparently) and advances; at `msgs.length` it
fails with `NoSegmentsFound`. -/
theorem readerNext_step {w : Wal} {msgs : List (List Nat × GoTime)} (hwf : WalWF w msgs)
    (hm : msgs ≠ []) (hNlt : msgs.length < 2 ^ 64) {k : Nat} {r : Reader}
    (hr : ReaderPos w k r) :
    (k < msgs.length → ∃ e r', readerNext w r = .ok (e, r') ∧
      (mkEntries 0 msgs)[k]? = some e ∧ e.index = k ∧ ReaderPos w (k + 1) r') ∧
    (k = msgs.length → readerNext w r = .err .noSegmentsFound) := by
  obtain ⟨hridx, j, s, hj, hcur, hk1, hk2⟩ := hr
  have hchain := hwf.2.1
  have hcat := hwf.2.2.2.1
  have hsWF : segWF s := chainWF_segWF _ 0 j s hchain hj
  have hallne := WalWF_allNE hwf hm
  have hsne : s.entries ≠ [] := hallne s (mem_of_getElem?_some hj)
  have hlastIdx : s.lastIndex + 1 = s.firstIndex + s.entries.length := segWF_lastIndex hsWF hsne
  have hNtot : entLen w.segments = msgs.length := by
    rw [← catEntries_length, hcat, mkEntries_length]
  have hbound := chainWF_seg_bound _ 0 j s hchain hj
  have hpe : Segment.path { s with isOpen := true, pos := k - s.firstIndex } = s.path := rfl
  have hle : Segment.lastIndex { s with isOpen := true, pos := k - s.firstIndex } =
    s.lastIndex := rfl
  by_cases hcross : k < s.firstIndex + s.entries.length
  · -- read inside the current copy
    have hkN : k < msgs.length := by omega
    have hklt : k - s.firstIndex < s.entries.length := by omega
    cases hee : s.entries[k - s.firstIndex]? with
    | none =>
        rw [List.getElem?_eq_none_iff] at hee
        omega
    | some e =>
        have hv := hsWF.2.2.2.2.1 e (mem_of_getElem?_some hee)
        have heidx : e.index = k := by
          have := hsWF.2.2.2.1 _ _ hee
          omega
        have hmk : (mkEntries 0 msgs)[k]? = some e := by
          have hcg := chain_cat_get _ 0 hchain j (k - s.firstIndex) s e hj hee
          rw [hcat] at hcg
          rwa [show s.firstIndex + (k - s.firstIndex) - 0 = k by omega] at hcg
        have hread : readEntrySeg { s with isOpen := true, pos := k - s.firstIndex } =
            .ok (e, { s with isOpen := true, pos := (k - s.firstIndex) + 1 }) :=
          readEntrySeg_ok hee hv.1
        have heval : readerNext w r = .ok (e,
            ⟨(e.index + 1) % 2 ^ 64, r.timestamp,
              some { s with isOpen := true, pos := (k - s.firstIndex) + 1 }⟩) := by
          simp only [readerNext, hcur]
          rw [if_pos trivial]
          simp only [GoRes.pure_eq, GoRes.bind_ok, hle]
          rw [if_neg (show ¬ r.index > s.lastIndex by omega)]
          simp only [GoRes.bind_ok, hread]
        constructor
        · intro _
          refine ⟨e, _, heval, hmk, heidx, ?_⟩
          refine ⟨?_, j, s, hj, ?_, by omega, by omega⟩
          · show (e.index + 1) % 2 ^ 64 = k + 1
            rw [heidx]
            exact Nat.mod_eq_of_lt (by omega)
          · show some _ = some _
            rw [show k - s.firstIndex + 1 = k + 1 - s.firstIndex by omega]
        · intro hkNeq
          omega
  · -- crossing: k = firstIndex + length
    have hkeq : k = s.firstIndex + s.entries.length := by omega
    have hgt : r.index > s.lastIndex := by omega
    have hfind := chain_findIdx_path _ 0 j s hchain hallne hj
    have hjlt : j < w.segments.length := getElem?_some_lt hj
    by_cases hknext : k < msgs.length
    · -- there is a next segment
      have hj1lt : j + 1 < w.segments.length := by
        by_contra hge
        have hj1 : j + 1 = w.segments.length := by omega
        have := chainWF_total _ 0 j s hchain hj hj1
        omega
      cases hs' : w.segments[j + 1]? with
      | none =>
          rw [List.getElem?_eq_none_iff] at hs'
          omega
      | some s' =>
          have hs'WF : segWF s' := chainWF_segWF _ 0 (j + 1) s' hchain hs'
          have hs'ne : s'.entries ≠ [] := hallne s' (mem_of_getElem?_some hs')
          have hf' : s'.firstIndex = k := by
            have := chainWF_next _ 0 j s s' hchain hj hs'
            omega
          have hs'len : 0 < s'.entries.length := List.length_pos.mpr hs'ne
          cases hee : s'.entries[0]? with
          | none =>
              rw [List.getElem?_eq_none_iff] at hee
              omega
          | some e =>
              have hv := hs'WF.2.2.2.2.1 e (mem_of_getElem?_some hee)
              have heidx : e.index = k := by
                have := hs'WF.2.2.2.1 _ _ hee
                omega
              have hmk : (mkEntries 0 msgs)[k]? = some e := by
                have hcg := chain_cat_get _ 0 hchain (j + 1) 0 s' e hs' hee
                rw [hcat] at hcg
                rwa [show s'.firstIndex + 0 - 0 = k by omega] at hcg
              have hload := loadSegment_WF hs'WF
              have hread : readEntrySeg { s' with isOpen := true, pos := 0 } =
                  .ok (e, { s' with isOpen := true, pos := 1 }) := by
                have := @readEntrySeg_ok { s' with isOpen := true, pos := 0 } _ hee hv.1
                exact this
              have heval : readerNext w r = .ok (e,
                  ⟨(e.index + 1) % 2 ^ 64, r.timestamp,
                    some { s' with isOpen := true, pos := 1 }⟩) := by
                simp only [readerNext, hcur]
                rw [if_pos trivial]
                simp only [GoRes.pure_eq, GoRes.bind_ok, hle]
                rw [if_pos hgt]
                simp only [hpe, hfind]
                rw [if_neg (show ¬ j + 1 ≥ w.segments.length by omega)]
                simp only [hs', hload, GoRes.bind_ok]
                rw [show segOpen { s' with isOpen := false, pos := 0 } =
                  .ok { s' with isOpen := true, pos := 0 } from rfl]
                simp only [GoRes.bind_ok, hread]
              constructor
              · intro _
                refine ⟨e, _, heval, hmk, heidx, ?_⟩
                refine ⟨?_, j + 1, s', hs', ?_, by omega, by omega⟩
                · show (e.index + 1) % 2 ^ 64 = k + 1
                  rw [heidx]
                  exact Nat.mod_eq_of_lt (by omega)
                · show some _ = some _
                  rw [show k + 1 - s'.firstIndex = 1 by omega]
              · intro hkNeq
                omega
    · -- no next segment: k = msgs.length and Next is EOF
      have hkN : k = msgs.length := by omega
      have hj1 : j + 1 ≥ w.segments.length := by
        by_contra hlt2
        push_neg at hlt2
        cases hs' : w.segments[j + 1]? with
        | none =>
            rw [List.getElem?_eq_none_iff] at hs'
            omega
        | some s' =>
            have hs'ne : s'.entries ≠ [] := hallne s' (mem_of_getElem?_some hs')
            have hs'len : 0 < s'.entries.length := List.length_pos.mpr hs'ne
            have hf' : s'.firstIndex = k := by
              have := chainWF_next _ 0 j s s' hchain hj hs'
              omega
            have := chainWF_seg_bound _ 0 (j + 1) s' hchain hs'
            omega
      constructor
      · intro hkless
        omega
      · intro _
        simp only [readerNext, hcur]
        rw [if_pos trivial]
        simp only [GoRes.pure_eq, GoRes.bind_ok, hle]
        rw [if_pos hgt]
        simp only [hpe, hfind]
        rw [if_pos hj1]
        rfl

/-- Behaviour of the index-probe loop on a segment whose entries carry
consecutive indices starting at `f`: starting from offset `p` with
probe variable `i` (`i = f` before any read, else the index of the last
entry read), the loop stops immediately if `target ≤ i`, stops just
after reading entry `target` when the segment holds it, and otherwise
consumes the whole segment. -/
theorem scanIdxGo_spec (target f : Nat) :
    ∀ (fuel p i : Nat) (s : Segment),
    (∀ k e, s.entries[k]? = some e → e.index = f + k) →
    (∀ e ∈ s.entries, e.crc32 = crc32c e.data) →
    s.pos = p → p ≤ s.entries.length →
    s.entries.length - p < fuel →
    ((p = 0 ∧ i = f) ∨ (1 ≤ p ∧ i + 1 = f + p)) →
    ((target ≤ i → scanIdxGo target fuel i s = .ok (i, s)) ∧
     (i < target → target + 1 ≤ f + s.entries.length →
       scanIdxGo target fuel i s = .ok (target, { s with pos := target + 1 - f })) ∧
     (i < target → f + s.entries.length < target + 1 → 1 ≤ s.entries.length →
       scanIdxGo target fuel i s =
         .ok (f + s.entries.length - 1, { s with pos := s.entries.length }))) := by
  intro fuel
  induction fuel with
  | zero =>
      intro p i s _ _ _ hple hfuel _
      omega
  | succ fuel ih =>
      intro p i s hidx hval hpos hple hfuel hi
      refine ⟨?_, ?_, ?_⟩
      · intro hle
        simp only [scanIdxGo]
        rw [if_neg (by omega : ¬ target > i)]
      · intro hlt htle
        by_cases hpl : p < s.entries.length
        · cases hee : s.entries[p]? with
          | none =>
              rw [List.getElem?_eq_none_iff] at hee
              omega
          | some e =>
              have heidx : e.index = f + p := hidx p e hee
              have hrd : readEntrySeg s = .ok (e, { s with pos := s.pos + 1 }) :=
                readEntrySeg_ok (by rw [hpos]; exact hee) (hval e (mem_of_getElem?_some hee))
              simp only [scanIdxGo]
              rw [if_pos (by omega : target > i)]
              simp only [hrd]
              have ih' := ih (p + 1) e.index { s with pos := s.pos + 1 } hidx hval
                (by show s.pos + 1 = p + 1; omega)
                (by show p + 1 ≤ s.entries.length; omega)
                (by show s.entries.length - (p + 1) < fuel; omega)
                (Or.inr ⟨by omega, by omega⟩)
              by_cases hstop : target ≤ e.index
              · have hres := ih'.1 hstop
                rw [hres]
                have h1 : e.index = target := by
                  rcases hi with ⟨h1, h2⟩ | ⟨h1, h2⟩ <;> omega
                have h2 : s.pos + 1 = target + 1 - f := by omega
                rw [h1, h2]
              · push_neg at hstop
                have hres := ih'.2.1 hstop (by show target + 1 ≤ f + s.entries.length; omega)
                rw [hres]
        · exfalso
          rcases hi with ⟨h1, h2⟩ | ⟨h1, h2⟩ <;> omega
      · intro hlt hgt hlen1
        by_cases hpl : p < s.entries.length
        · cases hee : s.entries[p]? with
          | none =>
              rw [List.getElem?_eq_none_iff] at hee
              omega
          | some e =>
              have heidx : e.index = f + p := hidx p e hee
              have hrd : readEntrySeg s = .ok (e, { s with pos := s.pos + 1 }) :=
                readEntrySeg_ok (by rw [hpos]; exact hee) (hval e (mem_of_getElem?_some hee))
              simp only [scanIdxGo]
              rw [if_pos (by omega : target > i)]
              simp only [hrd]
              have ih' := ih (p + 1) e.index { s with pos := s.pos + 1 } hidx hval
                (by show s.pos + 1 = p + 1; omega)
                (by show p + 1 ≤ s.entries.length; omega)
                (by show s.entries.length - (p + 1) < fuel; omega)
                (Or.inr ⟨by omega, by omega⟩)
              have hres := ih'.2.2 (by omega)
                (by show f + s.entries.length < target + 1; omega)
                (by show 1 ≤ s.entries.length; omega)
              rw [hres]
        · have hpe : p = s.entries.length := by omega
          simp only [scanIdxGo]
          rw [if_pos (by omega : target > i)]
          have heof : readEntrySeg s = .err .eof := by
            have hnone : s.entries[s.pos]? = none := by
              rw [hpos]
              exact List.getElem?_eq_none (by omega)
            simp [readEntrySeg, hnone]
          simp only [heof]
          rcases hi with ⟨h1, h2⟩ | ⟨h1, h2⟩
          · omega
          · have h3 : i = f + s.entries.length - 1 := by omega
            have h4 : ({ s with pos := s.entries.length } : Segment) = s := by
              rw [← hpe, ← hpos]
            rw [h3, h4]

/-- On a well-formed chain of non-empty segments, the index search finds
the (unique) segment containing any in-range target. -/
theorem findIndexSegment_found : ∀ (segs : List Segment) (n i : Nat),
    chainWF n segs → (∀ x ∈ segs, x.entries ≠ []) →
    n ≤ i → i < n + entLen segs →
    ∃ (j : Nat) (s : Segment), segs[j]? = some s ∧ findIndexSegment i segs = some s ∧
      s.firstIndex ≤ i ∧ i + 1 ≤ s.firstIndex + s.entries.length := by
  intro segs
  induction segs with
  | nil =>
      intro n i _ _ hle hlt
      simp only [entLen] at hlt
      omega
  | cons s0 rest ih =>
      intro n i hch hne hle hlt
      obtain ⟨hF, hwf0, hch'⟩ := hch
      have hlen0 : 1 ≤ s0.entries.length :=
        List.length_pos.mpr (hne s0 (by simp))
      have hL0 : s0.lastIndex + 1 = s0.firstIndex + s0.entries.length :=
        segWF_lastIndex hwf0 (hne s0 (by simp))
      by_cases hhere : i + 1 ≤ n + s0.entries.length
      · refine ⟨0, s0, by simp, ?_, by omega, by omega⟩
        unfold findIndexSegment
        rw [List.find?_cons_of_pos]
        simp only [Bool.or_eq_true, Bool.and_eq_true, decide_eq_true_eq]
        omega
      · simp only [entLen] at hlt
        obtain ⟨j, s, hjget, hfind, h1, h2⟩ :=
          ih (n + s0.entries.length) i hch' (fun x hx => hne x (by simp [hx]))
            (by omega) (by omega)
        refine ⟨j + 1, s, by simpa using hjget, ?_, h1, h2⟩
        unfold findIndexSegment
        rw [List.find?_cons_of_neg]
        · exact hfind
        · simp only [Bool.or_eq_true, Bool.and_eq_true, decide_eq_true_eq]
          omega

/-- Past the end of the chain, the index search fails. -/
theorem findIndexSegment_none : ∀ (segs : List Segment) (n i : Nat),
    chainWF n segs → (∀ x ∈ segs, x.entries ≠ []) →
    n + entLen segs ≤ i →
    findIndexSegment i segs = none := by
  intro segs
  induction segs with
  | nil =>
      intro n i _ _ _
      rfl
  | cons s0 rest ih =>
      intro n i hch hne hle
      obtain ⟨hF, hwf0, hch'⟩ := hch
      have hlen0 : 1 ≤ s0.entries.length :=
        List.length_pos.mpr (hne s0 (by simp))
      have hL0 : s0.lastIndex + 1 = s0.firstIndex + s0.entries.length :=
        segWF_lastIndex hwf0 (hne s0 (by simp))
      simp only [entLen] at hle
      unfold findIndexSegment
      rw [List.find?_cons_of_neg]
      · exact ih (n + s0.entries.length) i hch' (fun x hx => hne x (by simp [hx]))
          (by omega)
      · simp only [Bool.or_eq_true, Bool.and_eq_true, decide_eq_true_eq]
        omega

/-- Whenever the option fold yields a zero timestamp and index `i`, the
reader construction succeeds and leaves the cursor on global entry
`min i (msgs.length - 1)`: in-range targets are hit exactly, targets
past the end are clamped to the final entry. -/
theorem walReader_idx_branch {w : Wal} {msgs : List (List Nat × GoTime)}
    (hwf : WalWF w msgs) (hm : msgs ≠ []) {opts : List ReaderOption} {i : Nat}
    (hfold : opts.foldlM applyReaderOption ⟨0, GoTime.zero, none⟩ =
      .ok (⟨i, GoTime.zero, none⟩ : Reader)) :
    ∃ r, walReader w opts = .ok r ∧ ReaderPos w (min i (msgs.length - 1)) r := by
  have hchain := hwf.2.1
  have hallne := WalWF_allNE hwf hm
  have hN : entLen w.segments = msgs.length := by
    have h := congrArg List.length hwf.2.2.2.1
    rw [catEntries_length, mkEntries_length] at h
    exact h
  have hNpos : 1 ≤ msgs.length := List.length_pos.mpr hm
  have hz : (Reader.timestamp (⟨i, GoTime.zero, none⟩ : Reader)).isZero = true := rfl
  have hridx : Reader.index (⟨i, GoTime.zero, none⟩ : Reader) = i := rfl
  by_cases hiN : i < msgs.length
  · obtain ⟨j, s, hj, hfind, hfle, hflt⟩ :=
      findIndexSegment_found w.segments 0 i hchain hallne (by omega) (by omega)
    have hsWF := chainWF_segWF _ 0 j s hchain hj
    have hsne := hallne s (mem_of_getElem?_some hj)
    have hsel : selectIndexSegment w i = some s := by
      unfold selectIndexSegment
      rw [hfind]
    have hload := loadSegment_WF hsWF
    have hopen : segOpen { s with isOpen := false, pos := 0 } =
        .ok { s with isOpen := true, pos := 0 } := by
      simp [segOpen]
    have hspec := scanIdxGo_spec i s.firstIndex (s.entries.length + 1) 0 s.firstIndex
      { s with isOpen := true, pos := 0 }
      (fun k e hk => hsWF.2.2.2.1 k e hk)
      (fun e he => (hsWF.2.2.2.2.1 e he).1)
      rfl (Nat.zero_le _)
      (by show s.entries.length - 0 < s.entries.length + 1; omega)
      (Or.inl ⟨rfl, rfl⟩)
    have hmin : min i (msgs.length - 1) = i := by omega
    by_cases hif : i ≤ s.firstIndex
    · have hieq : i = s.firstIndex := by omega
      have hsc : scanToIndex i (Segment.firstIndex { s with isOpen := true, pos := 0 })
          { s with isOpen := true, pos := 0 } =
          .ok (s.firstIndex, { s with isOpen := true, pos := 0 }) := hspec.1 hif
      have hrew : rewindOne { s with isOpen := true, pos := 0 } =
          .ok { s with isOpen := true, pos := 0 } := by
        simp [rewindOne, gotoPrevSeg]
      refine ⟨⟨s.firstIndex, GoTime.zero, some { s with isOpen := true, pos := 0 }⟩, ?_, ?_⟩
      · simp only [walReader, hfold, GoRes.bind_ok]
        rw [if_pos hz]
        simp only [hridx, hsel, hload, GoRes.bind_ok, hopen, hsc, hrew]
      · rw [hmin, hieq]
        refine ⟨rfl, j, s, hj, ?_, by omega, by omega⟩
        rw [Nat.sub_self]
    · have hsc : scanToIndex i (Segment.firstIndex { s with isOpen := true, pos := 0 })
          { s with isOpen := true, pos := 0 } =
          .ok (i, { s with isOpen := true, pos := i + 1 - s.firstIndex }) :=
        hspec.2.1 (by omega) (by show i + 1 ≤ s.firstIndex + s.entries.length; omega)
      have hrew : rewindOne { s with isOpen := true, pos := i + 1 - s.firstIndex } =
          .ok { s with isOpen := true, pos := i - s.firstIndex } := by
        simp [rewindOne, gotoPrevSeg, show i + 1 - s.firstIndex - 1 = i - s.firstIndex
          from by omega, show ¬ (i + 1 - s.firstIndex = 0) from by omega]
      refine ⟨⟨i, GoTime.zero, some { s with isOpen := true, pos := i - s.firstIndex }⟩,
        ?_, ?_⟩
      · simp only [walReader, hfold, GoRes.bind_ok]
        rw [if_pos hz]
        simp only [hridx, hsel, hload, GoRes.bind_ok, hopen, hsc, hrew]
      · rw [hmin]
        exact ⟨rfl, j, s, hj, rfl, by omega, by omega⟩
  · have hnen : w.segments ≠ [] := hwf.1
    obtain ⟨a, x, hdecomp⟩ := exists_last_decomp hnen
    have hjx : w.segments[w.segments.length - 1]? = some x := by
      rw [← List.getLast?_eq_getElem?, hdecomp]
      exact List.getLast?_concat _
    have hxWF := chainWF_segWF _ 0 _ x hchain hjx
    have hxne := hallne x (mem_of_getElem?_some hjx)
    have hxlen : 1 ≤ x.entries.length := List.length_pos.mpr hxne
    have hslen : 1 ≤ w.segments.length := List.length_pos.mpr hnen
    have htot := chainWF_total w.segments 0 (w.segments.length - 1) x hchain hjx (by omega)
    have hxtot : x.firstIndex + x.entries.length = msgs.length := by omega
    obtain ⟨s0, hhds, hs00⟩ : ∃ s0, w.segments.head? = some s0 ∧ s0.firstIndex = 0 := by
      cases hsegs : w.segments with
      | nil => exact absurd hsegs hnen
      | cons s0 rest =>
          have hch := hchain
          rw [hsegs] at hch
          exact ⟨s0, rfl, hch.1⟩
    have hnone := findIndexSegment_none w.segments 0 i hchain hallne (by omega)
    have hsel : selectIndexSegment w i = some x := by
      unfold selectIndexSegment
      simp only [hnone, hhds]
      rw [if_neg (by omega : ¬ i < s0.firstIndex), hdecomp]
      exact List.getLast?_concat _
    have hload := loadSegment_WF hxWF
    have hopen : segOpen { x with isOpen := false, pos := 0 } =
        .ok { x with isOpen := true, pos := 0 } := by
      simp [segOpen]
    have hspec := scanIdxGo_spec i x.firstIndex (x.entries.length + 1) 0 x.firstIndex
      { x with isOpen := true, pos := 0 }
      (fun k e hk => hxWF.2.2.2.1 k e hk)
      (fun e he => (hxWF.2.2.2.2.1 e he).1)
      rfl (Nat.zero_le _)
      (by show x.entries.length - 0 < x.entries.length + 1; omega)
      (Or.inl ⟨rfl, rfl⟩)
    have hsc : scanToIndex i (Segment.firstIndex { x with isOpen := true, pos := 0 })
        { x with isOpen := true, pos := 0 } =
        .ok (x.firstIndex + x.entries.length - 1,
          { x with isOpen := true, pos := x.entries.length }) :=
      hspec.2.2 (by omega)
        (by show x.firstIndex + x.entries.length < i + 1; omega) hxlen
    have hrew : rewindOne { x with isOpen := true, pos := x.entries.length } =
        .ok { x with isOpen := true, pos := x.entries.length - 1 } := by
      simp [rewindOne, gotoPrevSeg, show ¬ (x.entries.length = 0) from by omega]
    have hmin : min i (msgs.length - 1) = msgs.length - 1 := by omega
    refine ⟨⟨x.firstIndex + x.entries.length - 1, GoTime.zero,
      some { x with isOpen := true, pos := x.entries.length - 1 }⟩, ?_, ?_⟩
    · simp only [walReader, hfold, GoRes.bind_ok]
      rw [if_pos hz]
      simp only [hridx, hsel, hload, GoRes.bind_ok, hopen, hsc, hrew]
    · rw [hmin]
      refine ⟨by show x.firstIndex + x.entries.length - 1 = msgs.length - 1; omega,
        w.segments.length - 1, x, hjx, ?_, by omega, by omega⟩
      rw [show msgs.length - 1 - x.firstIndex = x.entries.length - 1 from by omega]

theorem mkEntries_map_data (n : Nat) (msgs : List (List Nat × GoTime)) :
    (mkEntries n msgs).map (fun e => e.data) = msgs.map (fun m => m.1) := by
  induction msgs generalizing n with
  | nil => rfl
  | cons m rest ih => simp [mkEntries, newMessage, ih]

theorem mkEntries_map_index (n : Nat) (msgs : List (List Nat × GoTime)) :
    (mkEntries n msgs).map (fun e => e.index) = List.range' n msgs.length := by
  induction msgs generalizing n with
  | nil => rfl
  | cons m rest ih => simp [mkEntries, newMessage, ih, List.range'_succ]

/-- Iterating `Next` `cnt` times from a cursor on global entry `k`
returns entries `k, …, k + cnt - 1` in order and leaves the cursor on
`k + cnt`. -/
theorem readN_spec {w : Wal} {msgs : List (List Nat × GoTime)} (hwf : WalWF w msgs)
    (hm : msgs ≠ []) (hNlt : msgs.length < 2 ^ 64) :
    ∀ (cnt k : Nat) (r : Reader), ReaderPos w k r → k + cnt ≤ msgs.length →
    ∃ (es : List Entry) (r' : Reader), readN w cnt r = .ok (es, r') ∧
      es = ((mkEntries 0 msgs).drop k).take cnt ∧ ReaderPos w (k + cnt) r' := by
  intro cnt
  induction cnt with
  | zero =>
      intro k r hr hle
      exact ⟨[], r, rfl, by simp, by simpa using hr⟩
  | succ cnt ih =>
      intro k r hr hle
      obtain ⟨e, r1, hnext, hget, heidx, hr1⟩ :=
        (readerNext_step hwf hm hNlt hr).1 (by omega)
      obtain ⟨es, r2, hrec, hes, hr2⟩ := ih (k + 1) r1 hr1 (by omega)
      refine ⟨e :: es, r2, ?_, ?_,
        by rw [show k + (cnt + 1) = k + 1 + cnt from by omega]; exact hr2⟩
      · simp only [readN, hnext, GoRes.bind_ok, hrec]
      · have hklt : k < (mkEntries 0 msgs).length := by rw [mkEntries_length]; omega
        rw [hes, List.drop_eq_getElem_cons hklt, List.take_succ_cons]
        rw [List.getElem?_eq_getElem hklt] at hget
        injection hget with hget
        rw [hget]

/-- C1: for every log built by `New` plus `N` appends (any segmenting),
a no-option Reader's successive `Next` calls return exactly the `N`
appended payloads in order with indices `0 … N-1`, and the `(N+1)`-st
`Next` fails with `NoSegmentsFound`. -/
theorem claim_C1 (cfg : Config) (msgs : List (List Nat × GoTime))
    (hm : msgs ≠ []) (hsz : msgsSize msgs < 2 ^ 64) :
    ∃ (w : Wal) (r : Reader) (es : List Entry) (rf : Reader),
      buildWal cfg msgs = .ok w ∧
      walReader w [] = .ok r ∧
      readN w msgs.length r = .ok (es, rf) ∧
      es.map (fun e => e.data) = msgs.map (fun m => m.1) ∧
      es.map (fun e => e.index) = List.range msgs.length ∧
      readerNext w rf = .err .noSegmentsFound := by
  obtain ⟨w, hbuild, hwf⟩ := buildWal_WF cfg msgs hsz
  have hNlt : msgs.length < 2 ^ 64 := lt_of_le_of_lt (length_le_msgsSize msgs) hsz
  obtain ⟨r, hrd, hpos⟩ := @walReader_idx_branch w msgs hwf hm [] 0 rfl
  rw [show min 0 (msgs.length - 1) = 0 from by omega] at hpos
  obtain ⟨es, rf, hread, hes, hposf⟩ :=
    readN_spec hwf hm hNlt msgs.length 0 r hpos (by omega)
  rw [show 0 + msgs.length = msgs.length from by omega] at hposf
  have hfin := (readerNext_step hwf hm hNlt hposf).2 rfl
  have htake : ((mkEntries 0 msgs).drop 0).take msgs.length = mkEntries 0 msgs := by
    rw [List.drop_zero]
    exact List.take_of_length_le (by rw [mkEntries_length])
  refine ⟨w, r, es, rf, hbuild, hrd, hread, ?_, ?_, hfin⟩
  · rw [hes, htake]
    exact mkEntries_map_data 0 msgs
  · rw [hes, htake, mkEntries_map_index, List.range_eq_range']

theorem claim_C1_witness :
    ([([1], (⟨5, 0⟩ : GoTime)), ([2, 3], ⟨6, 0⟩)] : List (List Nat × GoTime)) ≠ [] ∧
    msgsSize [([1], ⟨5, 0⟩), ([2, 3], ⟨6, 0⟩)] < 2 ^ 64 ∧
    ∃ (w : Wal) (r : Reader) (es : List Entry) (rf : Reader),
      buildWal ⟨1, 0, 0, 0⟩ [([1], ⟨5, 0⟩), ([2, 3], ⟨6, 0⟩)] = .ok w ∧
      walReader w [] = .ok r ∧
      readN w 2 r = .ok (es, rf) ∧
      es.map (fun e => e.data) = [[1], [2, 3]] ∧
      es.map (fun e => e.index) = List.range 2 ∧
      readerNext w rf = .err .noSegmentsFound :=
  ⟨by decide, by decide,
    claim_C1 ⟨1, 0, 0, 0⟩ [([1], ⟨5, 0⟩), ([2, 3], ⟨6, 0⟩)] (by decide) (by decide)⟩

/-- C4: on a non-empty writer-built log (indices `0 … N-1`), a Reader
opened with `WithIndex(i)` delivers, on its first `Next`, the entry
with index `min i (N-1)`: targets at or below the first index read
from the beginning, in-range targets are hit exactly, and targets
above the last index yield exactly the final entry. -/
theorem claim_C4 (cfg : Config) (msgs : List (List Nat × GoTime)) (i : Nat)
    (hm : msgs ≠ []) (hsz : msgsSize msgs < 2 ^ 64) :
    ∃ (w : Wal) (r : Reader) (e : Entry) (r' : Reader),
      buildWal cfg msgs = .ok w ∧
      walReader w [.withIndex i] = .ok r ∧
      readerNext w r = .ok (e, r') ∧
      (mkEntries 0 msgs)[min i (msgs.length - 1)]? = some e ∧
      e.index = min i (msgs.length - 1) := by
  obtain ⟨w, hbuild, hwf⟩ := buildWal_WF cfg msgs hsz
  have hNlt : msgs.length < 2 ^ 64 := lt_of_le_of_lt (length_le_msgsSize msgs) hsz
  have hNpos : 1 ≤ msgs.length := List.length_pos.mpr hm
  have hfold : List.foldlM applyReaderOption
      (⟨0, GoTime.zero, none⟩ : Reader) [ReaderOption.withIndex i] =
      .ok (⟨i, GoTime.zero, none⟩ : Reader) := rfl
  obtain ⟨r, hrd, hpos⟩ := walReader_idx_branch hwf hm hfold
  obtain ⟨e, r', hnext, hget, heidx, _⟩ :=
    (readerNext_step hwf hm hNlt hpos).1 (by omega)
  exact ⟨w, r, e, r', hbuild, hrd, hnext, hget, heidx⟩

theorem claim_C4_witness :
    ([([1], (⟨5, 0⟩ : GoTime)), ([2], ⟨6, 0⟩), ([3], ⟨7, 0⟩)] :
      List (List Nat × GoTime)) ≠ [] ∧
    msgsSize [([1], ⟨5, 0⟩), ([2], ⟨6, 0⟩), ([3], ⟨7, 0⟩)] < 2 ^ 64 ∧
    ∃ (w : Wal) (r : Reader) (e : Entry) (r' : Reader),
      buildWal ⟨1, 0, 0, 0⟩ [([1], ⟨5, 0⟩), ([2], ⟨6, 0⟩), ([3], ⟨7, 0⟩)] = .ok w ∧
      walReader w [.withIndex 5] = .ok r ∧
      readerNext w r = .ok (e, r') ∧
      (mkEntries 0 [([1], ⟨5, 0⟩), ([2], ⟨6, 0⟩), ([3], ⟨7, 0⟩)])[min 5 2]? = some e ∧
      e.index = min 5 2 :=
  ⟨by decide, by decide,
    claim_C4 ⟨1, 0, 0, 0⟩ [([1], ⟨5, 0⟩), ([2], ⟨6, 0⟩), ([3], ⟨7, 0⟩)] 5
      (by decide) (by decide)⟩

/-- Behaviour of the timestamp-probe loop: with probe `tm` (the
segment's `firstTimestamp` before any read, then each entry's
timestamp) it stops at once if the target is not after `tm`, stops just
past the first remaining entry whose timestamp reaches the target, and
otherwise consumes the whole segment. -/
theorem scanTsGo_spec (target : GoTime) (f : Nat) :
    ∀ (fuel p : Nat) (tm : GoTime) (i : Nat) (s : Segment),
    (∀ k e, s.entries[k]? = some e → e.index = f + k) →
    (∀ e ∈ s.entries, e.crc32 = crc32c e.data) →
    s.pos = p → p ≤ s.entries.length →
    s.entries.length - p < fuel →
    ((target.after tm = false → scanTsGo target fuel tm i s = .ok (i, s)) ∧
     (target.after tm = true →
      ((∃ (k : Nat) (e : Entry), p ≤ k ∧ s.entries[k]? = some e ∧
          target.after e.timestamp = false ∧
          (∀ (j : Nat) (e' : Entry), p ≤ j → j < k → s.entries[j]? = some e' →
            target.after e'.timestamp = true) ∧
          scanTsGo target fuel tm i s = .ok (e.index, { s with pos := k + 1 })) ∨
       ((∀ (j : Nat) (e' : Entry), p ≤ j → s.entries[j]? = some e' →
            target.after e'.timestamp = true) ∧
        (p < s.entries.length →
          scanTsGo target fuel tm i s =
            .ok (f + s.entries.length - 1, { s with pos := s.entries.length })) ∧
        (p = s.entries.length → scanTsGo target fuel tm i s = .ok (i, s)))))) := by
  intro fuel
  induction fuel with
  | zero =>
      intro p tm i s _ _ _ hple hfuel
      omega
  | succ fuel ih =>
      intro p tm i s hidx hval hpos hple hfuel
      constructor
      · intro hfalse
        simp [scanTsGo, hfalse]
      · intro htrue
        by_cases hpl : p < s.entries.length
        · cases hee : s.entries[p]? with
          | none =>
              rw [List.getElem?_eq_none_iff] at hee
              omega
          | some e =>
              have heidx : e.index = f + p := hidx p e hee
              have hrd : readEntrySeg s = .ok (e, { s with pos := s.pos + 1 }) :=
                readEntrySeg_ok (by rw [hpos]; exact hee) (hval e (mem_of_getElem?_some hee))
              have hstep : scanTsGo target (fuel + 1) tm i s =
                  scanTsGo target fuel e.timestamp e.index { s with pos := s.pos + 1 } := by
                simp only [scanTsGo]
                rw [if_pos htrue]
                simp only [hrd]
              have ih' := ih (p + 1) e.timestamp e.index { s with pos := s.pos + 1 }
                hidx hval
                (by show s.pos + 1 = p + 1; omega)
                (by show p + 1 ≤ s.entries.length; omega)
                (by show s.entries.length - (p + 1) < fuel; omega)
              cases hafter : target.after e.timestamp with
              | false =>
                  left
                  refine ⟨p, e, Nat.le_refl p, hee, hafter,
                    fun j e' hj1 hj2 _ => absurd hj2 (by omega), ?_⟩
                  rw [hstep, ih'.1 hafter, hpos]
              | true =>
                  rcases ih'.2 hafter with ⟨k, e2, hk1, hk2, hk3, hk4, hk5⟩ |
                    ⟨hall, hlt, heq⟩
                  · left
                    refine ⟨k, e2, by omega, hk2, hk3, ?_, by rw [hstep]; exact hk5⟩
                    intro j e' hj1 hj2 hj3
                    by_cases hjp : j = p
                    · subst hjp
                      rw [hee] at hj3
                      injection hj3 with h
                      rw [← h]
                      exact hafter
                    · exact hk4 j e' (by omega) hj2 hj3
                  · right
                    refine ⟨?_, ?_, fun h => absurd h (by omega)⟩
                    · intro j e' hj1 hj3
                      by_cases hjp : j = p
                      · subst hjp
                        rw [hee] at hj3
                        injection hj3 with h
                        rw [← h]
                        exact hafter
                      · exact hall j e' (by omega) hj3
                    · intro _
                      rw [hstep]
                      by_cases hpe2 : p + 1 < s.entries.length
                      · rw [hlt (show p + 1 < s.entries.length from hpe2)]
                      · have hple2 : p + 1 = s.entries.length := by omega
                        rw [heq (show p + 1 = s.entries.length from hple2), hpos,
                          heidx, show f + p = f + s.entries.length - 1 from by omega,
                          show p + 1 = s.entries.length from hple2]
        · have hpe : p = s.entries.length := by omega
          right
          refine ⟨fun j e' hj1 hj3 => absurd (getElem?_some_lt hj3) (by omega),
            fun h => absurd h (by omega), fun _ => ?_⟩
          simp only [scanTsGo]
          rw [if_pos htrue]
          have heof : readEntrySeg s = .err .eof := by
            have hnone : s.entries[s.pos]? = none := by
              rw [hpos]
              exact List.getElem?_eq_none (by omega)
            simp [readEntrySeg, hnone]
          simp only [heof]

theorem findTsSegment_mem : ∀ (segs : List Segment) (t : GoTime) (s : Segment),
    findTsSegment t segs = some s → s ∈ segs := by
  intro segs
  induction segs with
  | nil =>
      intro t s h
      exact Option.noConfusion h
  | cons s0 rest ih =>
      intro t s h
      cases rest with
      | nil =>
          simp only [findTsSegment] at h
          split at h
          · injection h with h
            exact h ▸ List.mem_cons_self s0 []
          · exact Option.noConfusion h
      | cons s2 r =>
          simp only [findTsSegment] at h
          split at h
          · injection h with h
            exact h ▸ List.mem_cons_self s0 (s2 :: r)
          · split at h
            · injection h with h
              exact h ▸ List.mem_cons_self s0 (s2 :: r)
            · exact List.mem_cons_of_mem s0 (ih t s h)

/-- With at least one segment, the timestamp selection always yields a
segment of the log (search hit, clamp to first, or clamp to last). -/
theorem selectTsSegment_some {w : Wal} (hne : w.segments ≠ []) (t : GoTime) :
    ∃ (j : Nat) (s : Segment), w.segments[j]? = some s ∧
      selectTsSegment w t = some s := by
  cases hf : findTsSegment t w.segments with
  | some s =>
      have hmem := findTsSegment_mem _ t s hf
      obtain ⟨j, hj⟩ := List.mem_iff_getElem?.mp hmem
      exact ⟨j, s, hj, by simp only [selectTsSegment, hf]⟩
  | none =>
      cases hs0 : w.segments.head? with
      | none =>
          rw [List.head?_eq_none_iff] at hs0
          exact absurd hs0 hne
      | some s0 =>
          by_cases hb : t.before s0.firstTimestamp = true
          · have hj0 : w.segments[0]? = some s0 := by
              rw [← List.head?_eq_getElem?]
              exact hs0
            refine ⟨0, s0, hj0, ?_⟩
            simp only [selectTsSegment, hf, hs0]
            rw [if_pos hb]
          · obtain ⟨a, x, hdecomp⟩ := exists_last_decomp hne
            have hjx : w.segments[w.segments.length - 1]? = some x := by
              rw [← List.getLast?_eq_getElem?, hdecomp]
              exact List.getLast?_concat _
            refine ⟨w.segments.length - 1, x, hjx, ?_⟩
            simp only [selectTsSegment, hf, hs0]
            rw [if_neg hb, hdecomp]
            exact List.getLast?_concat _

/-- Whenever the option fold yields a non-zero timestamp `t` and index
0, reader construction succeeds; the cursor lands inside the segment
`selectTsSegment` picks, either on the first of its entries whose
timestamp is not strictly before `t`, or on its final entry when `t` is
after all its entries' timestamps. -/
theorem walReader_ts_branch {w : Wal} {msgs : List (List Nat × GoTime)}
    (hwf : WalWF w msgs) (hm : msgs ≠ []) {opts : List ReaderOption} {t : GoTime}
    (htz : t ≠ GoTime.zero)
    (hfold : opts.foldlM applyReaderOption ⟨0, GoTime.zero, none⟩ =
      .ok (⟨0, t, none⟩ : Reader)) :
    ∃ (j : Nat) (s : Segment) (r : Reader), w.segments[j]? = some s ∧
      selectTsSegment w t = some s ∧ walReader w opts = .ok r ∧
      ((∃ (k : Nat) (e : Entry), s.entries[k]? = some e ∧
          t.after e.timestamp = false ∧
          (∀ (k' : Nat) (e' : Entry), k' < k → s.entries[k']? = some e' →
            t.after e'.timestamp = true) ∧
          r = ⟨s.firstIndex + k, t, some { s with isOpen := true, pos := k }⟩) ∨
       ((∀ e' ∈ s.entries, t.after e'.timestamp = true) ∧
        r = ⟨s.firstIndex + s.entries.length - 1, t,
          some { s with isOpen := true, pos := s.entries.length - 1 }⟩)) := by
  have hchain := hwf.2.1
  have hallne := WalWF_allNE hwf hm
  obtain ⟨j, s, hj, hsel⟩ := selectTsSegment_some hwf.1 t
  have hsWF := chainWF_segWF _ 0 j s hchain hj
  have hsne := hallne s (mem_of_getElem?_some hj)
  have hslen : 1 ≤ s.entries.length := List.length_pos.mpr hsne
  obtain ⟨hp, hfl, hszs, hix, hval, hemp, hhd, hlast⟩ := hsWF
  have hzn : ¬ ((Reader.timestamp (⟨0, t, none⟩ : Reader)).isZero = true) := by
    show ¬ (GoTime.isZero t = true)
    simp only [GoTime.isZero, decide_eq_true_eq]
    exact htz
  have hrts : Reader.timestamp (⟨0, t, none⟩ : Reader) = t := rfl
  have hload := loadSegment_WF ⟨hp, hfl, hszs, hix, hval, hemp, hhd, hlast⟩
  have hopen : segOpen { s with isOpen := false, pos := 0 } =
      .ok { s with isOpen := true, pos := 0 } := by
    simp [segOpen]
  have hspec := scanTsGo_spec t s.firstIndex (s.entries.length + 1) 0
    s.firstTimestamp s.firstIndex { s with isOpen := true, pos := 0 }
    (fun k e hk => hix k e hk)
    (fun e he => (hval e he).1)
    rfl (Nat.zero_le _)
    (by show s.entries.length - 0 < s.entries.length + 1; omega)
  cases hA : t.after s.firstTimestamp with
  | false =>
      have hsc : scanToTimestamp t
          (Segment.firstTimestamp { s with isOpen := true, pos := 0 })
          (Segment.firstIndex { s with isOpen := true, pos := 0 })
          { s with isOpen := true, pos := 0 } =
          .ok (s.firstIndex, { s with isOpen := true, pos := 0 }) := hspec.1 hA
      have hrew : rewindOne { s with isOpen := true, pos := 0 } =
          .ok { s with isOpen := true, pos := 0 } := by
        simp [rewindOne, gotoPrevSeg]
      obtain ⟨e0, hhead⟩ : ∃ e0, s.entries.head? = some e0 := by
        cases hse : s.entries with
        | nil => exact absurd hse hsne
        | cons a l => exact ⟨a, rfl⟩
      have h0 : s.entries[0]? = some e0 := by
        rw [← List.head?_eq_getElem?]
        exact hhead
      refine ⟨j, s, ⟨s.firstIndex, t, some { s with isOpen := true, pos := 0 }⟩,
        hj, hsel, ?_, ?_⟩
      · simp only [walReader, hfold, GoRes.bind_ok]
        rw [if_neg hzn]
        simp only [hrts, hsel, hload, GoRes.bind_ok, hopen, hsc, hrew]
      · left
        refine ⟨0, e0, h0, ?_, fun k' e' hk' _ => absurd hk' (by omega), ?_⟩
        · rw [← hhd e0 hhead]
          exact hA
        · rw [Nat.add_zero]
  | true =>
      rcases hspec.2 hA with ⟨k, e, _, hk2, hk3, hk4, hk5⟩ | ⟨hall, hlt, _⟩
      · have hklt : k < s.entries.length := getElem?_some_lt hk2
        have hsc : scanToTimestamp t
            (Segment.firstTimestamp { s with isOpen := true, pos := 0 })
            (Segment.firstIndex { s with isOpen := true, pos := 0 })
            { s with isOpen := true, pos := 0 } =
            .ok (e.index, { s with isOpen := true, pos := k + 1 }) := hk5
        have hrew : rewindOne { s with isOpen := true, pos := k + 1 } =
            .ok { s with isOpen := true, pos := k } := by
          simp [rewindOne, gotoPrevSeg]
        refine ⟨j, s, ⟨e.index, t, some { s with isOpen := true, pos := k }⟩,
          hj, hsel, ?_, ?_⟩
        · simp only [walReader, hfold, GoRes.bind_ok]
          rw [if_neg hzn]
          simp only [hrts, hsel, hload, GoRes.bind_ok, hopen, hsc, hrew]
        · left
          refine ⟨k, e, hk2, hk3, fun k' e' hk' he' => hk4 k' e' (Nat.zero_le _) hk' he',
            ?_⟩
          rw [hix k e hk2]
      · have hsc : scanToTimestamp t
            (Segment.firstTimestamp { s with isOpen := true, pos := 0 })
            (Segment.firstIndex { s with isOpen := true, pos := 0 })
            { s with isOpen := true, pos := 0 } =
            .ok (s.firstIndex + s.entries.length - 1,
              { s with isOpen := true, pos := s.entries.length }) :=
          hlt (show 0 < s.entries.length from hslen)
        have hrew : rewindOne { s with isOpen := true, pos := s.entries.length } =
            .ok { s with isOpen := true, pos := s.entries.length - 1 } := by
          simp [rewindOne, gotoPrevSeg, show ¬ (s.entries.length = 0) from by omega]
        refine ⟨j, s, ⟨s.firstIndex + s.entries.length - 1, t,
          some { s with isOpen := true, pos := s.entries.length - 1 }⟩,
          hj, hsel, ?_, ?_⟩
        · simp only [walReader, hfold, GoRes.bind_ok]
          rw [if_neg hzn]
          simp only [hrts, hsel, hload, GoRes.bind_ok, hopen, hsc, hrew]
        · right
          refine ⟨?_, rfl⟩
          intro e' he'
          obtain ⟨j', hj'⟩ := List.mem_iff_getElem?.mp he'
          exact hall j' e' (Nat.zero_le _) hj'

/-- C5 (amended): a Reader opened with `WithTimestamp(t)` selects its
segment via the source's predicate chain (strictly-inside, endpoint
match, inter-segment gap, else clamp to first/last segment), and the
first `Next` then returns the first entry *of the selected segment*
whose timestamp is not before `t`, or that segment's final entry when
`t` is after all of its entries' timestamps.  (The claim's stronger
reading — the first entry of the whole log with timestamp ≥ `t` — fails
in the gap case, see the counterexample.) -/
theorem claim_C5 (cfg : Config) (msgs : List (List Nat × GoTime)) (t : GoTime)
    (hm : msgs ≠ []) (hsz : msgsSize msgs < 2 ^ 64) (htz : t ≠ GoTime.zero) :
    ∃ (w : Wal) (s : Segment) (r : Reader) (e : Entry) (r' : Reader),
      buildWal cfg msgs = .ok w ∧
      selectTsSegment w t = some s ∧ s ∈ w.segments ∧
      walReader w [.withTimestamp t] = .ok r ∧
      readerNext w r = .ok (e, r') ∧
      ((∃ (k : Nat), s.entries[k]? = some e ∧ t.after e.timestamp = false ∧
          (∀ (k' : Nat) (e' : Entry), k' < k → s.entries[k']? = some e' →
            t.after e'.timestamp = true)) ∨
       (s.entries.getLast? = some e ∧ ∀ e' ∈ s.entries, t.after e'.timestamp = true)) := by
  obtain ⟨w, hbuild, hwf⟩ := buildWal_WF cfg msgs hsz
  have hNlt : msgs.length < 2 ^ 64 := lt_of_le_of_lt (length_le_msgsSize msgs) hsz
  have hchain := hwf.2.1
  have hcat := hwf.2.2.2.1
  have hN : entLen w.segments = msgs.length := by
    have h := congrArg List.length hcat
    rw [catEntries_length, mkEntries_length] at h
    exact h
  have hfold : List.foldlM applyReaderOption
      (⟨0, GoTime.zero, none⟩ : Reader) [ReaderOption.withTimestamp t] =
      .ok (⟨0, t, none⟩ : Reader) := rfl
  obtain ⟨j, s, r, hj, hsel, hrd, hdisj⟩ := walReader_ts_branch hwf hm htz hfold
  have hbound := chainWF_seg_bound w.segments 0 j s hchain hj
  have hsne := WalWF_allNE hwf hm s (mem_of_getElem?_some hj)
  have hslen : 1 ≤ s.entries.length := List.length_pos.mpr hsne
  rcases hdisj with ⟨k, e, hk2, hk3, hk4, hreq⟩ | ⟨hall, hreq⟩
  · have hklt : k < s.entries.length := getElem?_some_lt hk2
    have hpos : ReaderPos w (s.firstIndex + k) r := by
      rw [hreq]
      refine ⟨rfl, j, s, hj, ?_, by omega, by omega⟩
      rw [show s.firstIndex + k - s.firstIndex = k from by omega]
    obtain ⟨e2, r', hnext, hget, _, _⟩ :=
      (readerNext_step hwf hm hNlt hpos).1 (by omega)
    have hcg := chain_cat_get w.segments 0 hchain j k s e hj hk2
    rw [hcat, Nat.sub_zero, hget] at hcg
    injection hcg with hcg
    refine ⟨w, s, r, e, r', hbuild, hsel, mem_of_getElem?_some hj, hrd, ?_, ?_⟩
    · rw [hcg] at hnext
      exact hnext
    · exact Or.inl ⟨k, hk2, hk3, hk4⟩
  · have hpos : ReaderPos w (s.firstIndex + s.entries.length - 1) r := by
      rw [hreq]
      refine ⟨rfl, j, s, hj, ?_, by omega, by omega⟩
      rw [show s.firstIndex + s.entries.length - 1 - s.firstIndex =
        s.entries.length - 1 from by omega]
    obtain ⟨e2, r', hnext, hget, _, _⟩ :=
      (readerNext_step hwf hm hNlt hpos).1 (by omega)
    obtain ⟨eL, hL⟩ : ∃ eL, s.entries[s.entries.length - 1]? = some eL := by
      cases hsome : s.entries[s.entries.length - 1]? with
      | none =>
          rw [List.getElem?_eq_none_iff] at hsome
          omega
      | some eL => exact ⟨eL, rfl⟩
    have hcg := chain_cat_get w.segments 0 hchain j (s.entries.length - 1) s eL hj hL
    rw [hcat, Nat.sub_zero,
      show s.firstIndex + (s.entries.length - 1) =
        s.firstIndex + s.entries.length - 1 from by omega, hget] at hcg
    injection hcg with hcg
    refine ⟨w, s, r, e2, r', hbuild, hsel, mem_of_getElem?_some hj, hrd, hnext, ?_⟩
    refine Or.inr ⟨?_, hall⟩
    rw [List.getLast?_eq_getElem?, hL, hcg]

/-- With segments timestamped 10 and 30 and target 20 (the gap case),
the first `Next` returns the entry timestamped 10 — an entry *before*
the target — although an entry with timestamp ≥ 20 exists: the gap
predicate selects the earlier segment and the scan stalls at its end. -/
theorem claim_C5_counterexample :
    (do
      let w ← buildWal ⟨1, 0, 0, 0⟩ [([1], ⟨10, 0⟩), ([2], ⟨30, 0⟩)]
      let r ← walReader w [.withTimestamp ⟨20, 0⟩]
      let (e, _) ← readerNext w r
      pure (e.index, e.timestamp, e.data) : GoRes (Nat × GoTime × List Nat)) =
      .ok (0, ⟨10, 0⟩, [1]) ∧
    GoTime.after ⟨20, 0⟩ ⟨10, 0⟩ = true ∧
    GoTime.before ⟨20, 0⟩ ⟨30, 0⟩ = true := by
  decide

theorem claim_C5_witness :
    ([([1], (⟨10, 0⟩ : GoTime)), ([2], ⟨30, 0⟩)] : List (List Nat × GoTime)) ≠ [] ∧
    msgsSize [([1], ⟨10, 0⟩), ([2], ⟨30, 0⟩)] < 2 ^ 64 ∧
    (⟨20, 0⟩ : GoTime) ≠ GoTime.zero ∧
    ∃ (w : Wal) (s : Segment) (r : Reader) (e : Entry) (r' : Reader),
      buildWal ⟨1, 0, 0, 0⟩ [([1], ⟨10, 0⟩), ([2], ⟨30, 0⟩)] = .ok w ∧
      selectTsSegment w ⟨20, 0⟩ = some s ∧ s ∈ w.segments ∧
      walReader w [.withTimestamp ⟨20, 0⟩] = .ok r ∧
      readerNext w r = .ok (e, r') ∧
      ((∃ (k : Nat), s.entries[k]? = some e ∧
          GoTime.after ⟨20, 0⟩ e.timestamp = false ∧
          (∀ (k' : Nat) (e' : Entry), k' < k → s.entries[k']? = some e' →
            GoTime.after ⟨20, 0⟩ e'.timestamp = true)) ∨
       (s.entries.getLast? = some e ∧
         ∀ e' ∈ s.entries, GoTime.after ⟨20, 0⟩ e'.timestamp = true)) :=
  ⟨by decide, by decide, by decide,
    claim_C5 ⟨1, 0, 0, 0⟩ [([1], ⟨10, 0⟩), ([2], ⟨30, 0⟩)] ⟨20, 0⟩
      (by decide) (by decide) (by decide)⟩

theorem insertFile_sorted (x : Nat × List Entry) : ∀ (l : List (Nat × List Entry)),
    (∀ y ∈ l, x.1 < y.1) → insertFile x l = x :: l := by
  intro l h
  cases l with
  | nil => rfl
  | cons y r =>
      unfold insertFile
      rw [if_pos (Nat.le_of_lt (h y (List.mem_cons_self y r)))]

/-- `slices.Sort` on an already strictly sorted path list is the
identity. -/
theorem sortFiles_sorted : ∀ (l : List (Nat × List Entry)),
    l.Pairwise (fun a b => a.1 < b.1) → sortFiles l = l := by
  intro l
  induction l with
  | nil => intro _; rfl
  | cons x r ih =>
      intro hp
      rw [List.pairwise_cons] at hp
      show insertFile x (sortFiles r) = x :: r
      rw [ih hp.2, insertFile_sorted x r hp.1]

/-- Along a well-formed chain whose non-final segments are non-empty,
the file names (= first indices) strictly increase. -/
theorem chain_paths_pairwise : ∀ (segs : List Segment) (n : Nat), chainWF n segs →
    (∀ s ∈ segs.dropLast, s.entries ≠ []) →
    segs.Pairwise (fun a b => a.path < b.path) := by
  intro segs
  induction segs with
  | nil =>
      intro n _ _
      exact List.Pairwise.nil
  | cons s0 rest ih =>
      intro n hch hinit
      obtain ⟨hF, hwf0, hch'⟩ := hch
      cases rest with
      | nil => exact List.pairwise_singleton _ _
      | cons s1 r1 =>
          have hlen0 : 1 ≤ s0.entries.length := by
            refine List.length_pos.mpr (hinit s0 ?_)
            rw [List.dropLast_cons₂]
            exact List.mem_cons_self _ _
          rw [List.pairwise_cons]
          constructor
          · intro b hb
            obtain ⟨j, hj⟩ := List.mem_iff_getElem?.mp hb
            have hge := chainWF_firstIndex_ge _ (n + s0.entries.length) j b hch' hj
            have hbWF := chainWF_segWF _ (n + s0.entries.length) j b hch' hj
            rw [hwf0.1, hbWF.1]
            omega
          · refine ih (n + s0.entries.length) hch' ?_
            intro s hs
            refine hinit s ?_
            rw [List.dropLast_cons₂]
            exact List.mem_cons_of_mem _ hs

/-- Loading every written segment file succeeds and reproduces each
segment, closed and rewound. -/
theorem mapM_loadSegment : ∀ (segs : List Segment), (∀ s ∈ segs, segWF s) →
    ((segs.map (fun s => (s.path, s.entries))).mapM
        (fun f => loadSegment f.1 f.2) : GoRes (List Segment)) =
      .ok (segs.map (fun s => { s with isOpen := false, pos := 0 })) := by
  intro segs
  induction segs with
  | nil => intro _; rfl
  | cons s rest ih =>
      intro h
      have hl : loadSegment s.path s.entries = .ok { s with isOpen := false, pos := 0 } :=
        loadSegment_WF (h s (List.mem_cons_self s rest))
      simp only [List.map_cons, List.mapM_cons, hl, GoRes.bind_ok,
        ih (fun t ht => h t (List.mem_cons_of_mem s ht)), GoRes.pure_eq]

/-- C6: reloading the directory a closed writer left behind round-trips
the log: `Load` succeeds, reproduces every segment's metadata
(first/last index, file length), installs the decoded config, and sets
the next index to `active.lastIndex + 1` when the active segment is
non-empty and to `active.lastIndex` when it is empty — in both cases
the writer's next index. -/
theorem claim_C6 (cfg cfg' : Config) (msgs : List (List Nat × GoTime))
    (hsz : msgsSize msgs < 2 ^ 64) :
    ∃ (w w' : Wal), buildWal cfg msgs = .ok w ∧
      loadWal (diskOf (walClose w)) cfg' = .ok w' ∧
      w'.index = w.index ∧
      w'.config = cfg' ∧
      w'.segments.map (fun s => (s.firstIndex, s.lastIndex, s.fileLength)) =
        w.segments.map (fun s => (s.firstIndex, s.lastIndex, s.fileLength)) ∧
      (∃ sl, w'.segments.getLast? = some sl ∧
        w'.index = (if sl.entries = [] then sl.lastIndex else sl.lastIndex + 1)) := by
  obtain ⟨w, hbuild, hwf⟩ := buildWal_WF cfg msgs hsz
  obtain ⟨hne, hchain, hinit, hcat, hidx, _⟩ := hwf
  have hN : entLen w.segments = msgs.length := by
    have h := congrArg List.length hcat
    rw [catEntries_length, mkEntries_length] at h
    exact h
  have hallWF : ∀ s ∈ w.segments, segWF s := by
    intro s hs
    obtain ⟨j, hj⟩ := List.mem_iff_getElem?.mp hs
    exact chainWF_segWF _ 0 j s hchain hj
  obtain ⟨a, x, hdecomp⟩ := exists_last_decomp hne
  have hslen : 1 ≤ w.segments.length := List.length_pos.mpr hne
  have hjx : w.segments[w.segments.length - 1]? = some x := by
    rw [← List.getLast?_eq_getElem?, hdecomp]
    exact List.getLast?_concat _
  obtain ⟨hp, hfl, hszs, hix, hval, hemp, hhd, hlast⟩ := chainWF_segWF _ 0 _ x hchain hjx
  have htot := chainWF_total w.segments 0 (w.segments.length - 1) x hchain hjx (by omega)
  have hfiles : diskOf (walClose w) = w.segments.map (fun s => (s.path, s.entries)) := by
    show (updateLast segClose w.segments).map (fun s => (s.path, s.entries)) = _
    rw [hdecomp, updateLast_concat, List.map_append, List.map_append]
    rfl
  have hsorted : sortFiles (w.segments.map (fun s => (s.path, s.entries))) =
      w.segments.map (fun s => (s.path, s.entries)) := by
    refine sortFiles_sorted _ ?_
    refine (List.pairwise_map).mpr ?_
    exact chain_paths_pairwise w.segments 0 hchain hinit
  have hmapm := mapM_loadSegment w.segments hallWF
  have hlastg : (w.segments.map
      (fun s => { s with isOpen := false, pos := 0 })).getLast? =
      some { x with isOpen := false, pos := 0 } := by
    rw [hdecomp]
    simp only [List.map_append, List.map_cons, List.map_nil]
    exact List.getLast?_concat _
  have hopen : segOpen { x with isOpen := false, pos := 0 } =
      .ok { x with isOpen := true, pos := 0 } := by
    simp [segOpen]
  refine ⟨w, ⟨(w.segments.map (fun s => { s with isOpen := false, pos := 0 })).dropLast
      ++ [{ x with isOpen := true, pos := x.entries.length }], cfg',
      if x.fileLength = 0 then x.lastIndex else x.lastIndex + 1⟩,
    hbuild, ?_, ?_, rfl, ?_, ?_⟩
  · rw [hfiles]
    simp only [loadWal, hsorted, hmapm, GoRes.bind_ok, hlastg, hopen]
  · show (if x.fileLength = 0 then x.lastIndex else x.lastIndex + 1) = w.index
    rw [hidx]
    by_cases hxe : x.entries = []
    · rw [if_pos (by rw [hfl, hxe]; rfl)]
      have h1 := (hemp hxe).1
      rw [hxe] at htot
      simp only [List.length_nil] at htot
      omega
    · have hpos : 0 < sizeSum x.entries := sizeSum_pos hxe
      rw [if_neg (by rw [hfl]; omega)]
      have hLI := segWF_lastIndex ⟨hp, hfl, hszs, hix, hval, hemp, hhd, hlast⟩ hxe
      omega
  · show ((w.segments.map (fun (s : Segment) =>
        { s with isOpen := false, pos := 0 })).dropLast
        ++ [{ x with isOpen := true, pos := x.entries.length }]).map
        (fun (s : Segment) => (s.firstIndex, s.lastIndex, s.fileLength)) =
      w.segments.map (fun (s : Segment) => (s.firstIndex, s.lastIndex, s.fileLength))
    simp only [hdecomp, List.map_append, List.map_cons, List.map_nil,
      List.dropLast_concat, List.map_map]
    rfl
  · refine ⟨{ x with isOpen := true, pos := x.entries.length }, ?_, ?_⟩
    · exact List.getLast?_concat _
    · show (if x.fileLength = 0 then x.lastIndex else x.lastIndex + 1) =
        (if x.entries = [] then x.lastIndex else x.lastIndex + 1)
      by_cases hxe : x.entries = []
      · rw [if_pos (by rw [hfl, hxe]; rfl), if_pos hxe]
      · rw [if_neg (by rw [hfl]; have := sizeSum_pos hxe; omega), if_neg hxe]

theorem claim_C6_witness :
    msgsSize [([1], (⟨5, 0⟩ : GoTime)), ([2], ⟨6, 0⟩)] < 2 ^ 64 ∧
    ∃ (w w' : Wal), buildWal ⟨1, 0, 0, 0⟩ [([1], ⟨5, 0⟩), ([2], ⟨6, 0⟩)] = .ok w ∧
      loadWal (diskOf (walClose w)) ⟨7, 8, 0, 0⟩ = .ok w' ∧
      w'.index = w.index ∧
      w'.config = ⟨7, 8, 0, 0⟩ ∧
      w'.segments.map (fun s => (s.firstIndex, s.lastIndex, s.fileLength)) =
        w.segments.map (fun s => (s.firstIndex, s.lastIndex, s.fileLength)) ∧
      (∃ sl, w'.segments.getLast? = some sl ∧
        w'.index = (if sl.entries = [] then sl.lastIndex else sl.lastIndex + 1)) :=
  ⟨by decide, claim_C6 ⟨1, 0, 0, 0⟩ ⟨7, 8, 0, 0⟩ [([1], ⟨5, 0⟩), ([2], ⟨6, 0⟩)] (by decide)⟩

end Walgo
